import Mathlib

/-!
Verification of the sushi-fetch cache engine and request orchestration layer.

The definitions below are a shallow embedding of the repository's two core
modules:

* `SushiCache` (src/unnamed/part_001): a bounded, TTL-aware key-value store
  with a tag index, pub/sub listeners, LRU-style positional eviction and
  hit/miss statistics.  JavaScript `Map`s preserve insertion order, so they
  are modelled as association lists (`List (Key × β)`) where the head is the
  oldest entry; `Map.set` on a fresh key appends at the tail.
* the fetcher module (src/unnamed/part_003): cache-key derivation
  (`stableStringify` / `buildCacheKey`), the retry loop (`retryFetch`), the
  in-flight dedup table (`pendingRequests`) and the request flow of
  `fetcher` including the stale-fallback catch branch.

Time is passed explicitly (the embedding of `Date.now()`), listeners are
identified by numeric ids and carry a flag saying whether invoking them
throws, and every operation returns its final state together with
`Option ρ` where `none` means a JavaScript exception propagated out of the
operation (the state reflects all mutations applied before the throw).
Notification deliveries and `onEvict` callback invocations are recorded in
append-only logs so that theorems can speak about them.
-/

namespace SushiSpec

abbrev Key := String

/-! ### Association lists with JavaScript `Map` semantics -/

/-- Lookup in an association list: the first binding wins (JS `Map.get`). -/
def alGet {β : Type} : List (Key × β) → Key → Option β
  | [], _ => none
  | p :: l, k => if p.1 = k then some p.2 else alGet l k

/-- JS `Map.set`: replace in place if the key is present, append otherwise. -/
def alSet {β : Type} : List (Key × β) → Key → β → List (Key × β)
  | [], k, v => [(k, v)]
  | p :: l, k, v => if p.1 = k then (k, v) :: l else p :: alSet l k v

/-- JS `Map.delete`: remove every binding of the key (there is at most one). -/
def alDelete {β : Type} : List (Key × β) → Key → List (Key × β)
  | [], _ => []
  | p :: l, k => if p.1 = k then alDelete l k else p :: alDelete l k

theorem alGet_nil {β : Type} (k : Key) : alGet ([] : List (Key × β)) k = none := rfl

theorem alGet_eq_none_iff {β : Type} (l : List (Key × β)) (k : Key) :
    alGet l k = none ↔ k ∉ l.map Prod.fst := by
  induction l with
  | nil => simp [alGet]
  | cons p l ih =>
    by_cases h : p.1 = k
    · subst h
      simp [alGet]
    · simp [alGet, h, ih, Ne.symm h]

theorem alGet_alSet_self {β : Type} (l : List (Key × β)) (k : Key) (v : β) :
    alGet (alSet l k v) k = some v := by
  induction l with
  | nil => simp [alSet, alGet]
  | cons p l ih =>
    by_cases h : p.1 = k <;> simp [alSet, alGet, h, ih]

theorem alGet_alSet_ne {β : Type} (l : List (Key × β)) (k k' : Key) (v : β)
    (hne : k' ≠ k) : alGet (alSet l k v) k' = alGet l k' := by
  induction l with
  | nil => simp [alSet, alGet, Ne.symm hne]
  | cons p l ih =>
    by_cases h : p.1 = k
    · subst h
      simp [alSet, alGet, Ne.symm hne]
    · by_cases h2 : p.1 = k' <;> simp [alSet, alGet, h, h2, hne, ih]

theorem alGet_alDelete_self {β : Type} (l : List (Key × β)) (k : Key) :
    alGet (alDelete l k) k = none := by
  induction l with
  | nil => simp [alDelete, alGet]
  | cons p l ih =>
    by_cases h : p.1 = k <;> simp [alDelete, alGet, h, ih]

theorem alGet_alDelete_ne {β : Type} (l : List (Key × β)) (k k' : Key)
    (hne : k' ≠ k) : alGet (alDelete l k) k' = alGet l k' := by
  induction l with
  | nil => simp [alDelete]
  | cons p l ih =>
    by_cases h : p.1 = k
    · subst h
      simp [alDelete, alGet, Ne.symm hne, ih]
    · simp [alDelete, alGet, h, ih]

theorem alDelete_sublist {β : Type} (l : List (Key × β)) (k : Key) :
    (alDelete l k).Sublist l := by
  induction l with
  | nil => simp [alDelete]
  | cons p l ih =>
    by_cases h : p.1 = k
    · rw [alDelete, if_pos h]
      exact ih.cons p
    · rw [alDelete, if_neg h]
      exact ih.cons₂ p

theorem alDelete_keys_nodup {β : Type} (l : List (Key × β)) (k : Key)
    (h : (l.map Prod.fst).Nodup) : ((alDelete l k).map Prod.fst).Nodup :=
  ((alDelete_sublist l k).map Prod.fst).nodup h

theorem alDelete_of_not_mem {β : Type} (l : List (Key × β)) (k : Key)
    (h : k ∉ l.map Prod.fst) : alDelete l k = l := by
  induction l with
  | nil => rfl
  | cons p l ih =>
    simp only [List.map_cons, List.mem_cons] at h
    push_neg at h
    simp [alDelete, Ne.symm h.1, ih h.2]

theorem alDelete_cons_self {β : Type} (p : Key × β) (l : List (Key × β))
    (h : p.1 ∉ l.map Prod.fst) : alDelete (p :: l) p.1 = l := by
  simp [alDelete, alDelete_of_not_mem l p.1 h]

theorem alDelete_length_lt {β : Type} (p : Key × β) (l : List (Key × β)) :
    (alDelete (p :: l) p.1).length < (p :: l).length := by
  have h := (alDelete_sublist l p.1).length_le
  rw [alDelete, if_pos rfl]
  simp only [List.length_cons]
  omega

theorem alSet_of_not_mem {β : Type} (l : List (Key × β)) (k : Key) (v : β)
    (h : k ∉ l.map Prod.fst) : alSet l k v = l ++ [(k, v)] := by
  induction l with
  | nil => rfl
  | cons p l ih =>
    simp only [List.map_cons, List.mem_cons] at h
    push_neg at h
    simp [alSet, Ne.symm h.1, ih h.2]

theorem alSet_keys_of_mem {β : Type} (l : List (Key × β)) (k : Key) (v : β)
    (h : k ∈ l.map Prod.fst) : (alSet l k v).map Prod.fst = l.map Prod.fst := by
  induction l with
  | nil => simp at h
  | cons p l ih =>
    by_cases hp : p.1 = k
    · simp [alSet, hp]
    · simp only [List.map_cons, List.mem_cons] at h
      rcases h with h | h
      · exact (hp h.symm).elim
      · simp [alSet, hp, ih h]

theorem alGet_append_left {β : Type} (l₁ l₂ : List (Key × β)) (k : Key) (v : β)
    (h : alGet l₁ k = some v) : alGet (l₁ ++ l₂) k = some v := by
  induction l₁ with
  | nil => simp [alGet] at h
  | cons p l ih =>
    by_cases hp : p.1 = k <;> simp_all [alGet]

theorem alGet_append_right {β : Type} (l₁ l₂ : List (Key × β)) (k : Key)
    (h : alGet l₁ k = none) : alGet (l₁ ++ l₂) k = alGet l₂ k := by
  induction l₁ with
  | nil => rfl
  | cons p l ih =>
    by_cases hp : p.1 = k <;> simp_all [alGet]

theorem alGet_mem_of_some {β : Type} (l : List (Key × β)) (k : Key) (v : β)
    (h : alGet l k = some v) : (k, v) ∈ l := by
  induction l with
  | nil => simp [alGet] at h
  | cons p l ih =>
    obtain ⟨a, b⟩ := p
    by_cases hp : a = k
    · subst hp
      simp only [alGet, if_pos rfl] at h
      obtain rfl := Option.some.inj h
      exact List.mem_cons_self _ _
    · simp only [alGet, if_neg hp] at h
      exact List.mem_cons_of_mem _ (ih h)

theorem alGet_eq_some_of_mem_nodup {β : Type} (l : List (Key × β)) (k : Key) (v : β)
    (hnd : (l.map Prod.fst).Nodup) (h : (k, v) ∈ l) : alGet l k = some v := by
  induction l with
  | nil => simp at h
  | cons p l ih =>
    simp only [List.map_cons, List.nodup_cons] at hnd
    rcases List.mem_cons.mp h with h | h
    · subst h
      simp [alGet]
    · have hne : p.1 ≠ k := by
        intro he
        exact hnd.1 (he ▸ (List.mem_map.mpr ⟨(k, v), h, rfl⟩))
      simp [alGet, hne, ih hnd.2 h]

/-! ### The cache data model (src/unnamed/part_001)

A `CacheListener` is identified by a numeric id; its behaviour when invoked
is abstracted by the `throws` flag (`true` means invoking it raises an
exception, as an arbitrary JavaScript callback may).  A delivered invocation
is recorded as a `Notif`; an `onEvict` callback invocation is recorded as an
`EvictRec`.  `none` in `Notif.val` is the `null` sentinel. -/

structure Listener where
  id : Nat
  throws : Bool
  deriving DecidableEq, Repr

structure CacheEntry (α : Type) where
  data : α
  expiry : Nat
  lastAccess : Nat
  tags : List String
  deriving DecidableEq, Repr

structure Notif (α : Type) where
  listener : Nat
  key : Key
  val : Option α
  deriving DecidableEq, Repr

structure EvictRec (α : Type) where
  key : Key
  val : α
  deriving DecidableEq, Repr

/-- The state of a `SushiCache` instance.  `store`, `tagMap` and
`listeners` model the three JS `Map`s in insertion order (head oldest);
`maxSize = none` models `Infinity`.  `log` and `evictLog` record listener
notifications and `onEvict` invocations, in order. -/
structure SushiCache (α : Type) where
  store : List (Key × CacheEntry α)
  tagMap : List (String × List Key)
  listeners : List (Key × List Listener)
  maxSize : Option Nat
  defaultTTL : Nat
  sliding : Bool
  hits : Nat
  misses : Nat
  log : List (Notif α)
  evictLog : List (EvictRec α)
  deriving DecidableEq, Repr

variable {α : Type}

/-- Invoke the listeners of one notification cycle in subscription order
(`Set.forEach`).  Returns the invocations performed and whether a listener
threw; a throw stops the iteration and propagates (there is no try/catch
around the `forEach` in `notify`). -/
def deliver : List Listener → Key → Option α → List (Notif α) × Bool
  | [], _, _ => ([], false)
  | l :: rest, k, v =>
    if l.throws then ([⟨l.id, k, v⟩], true)
    else
      let r := deliver rest k v
      (⟨l.id, k, v⟩ :: r.1, r.2)

/-- `SushiCache.notify` (part_001 lines 77-81): deliver `data` to every
listener registered for `key`.  The `Bool` is `true` when a listener threw
(the exception then propagates to the mutating caller). -/
def SushiCache.notify (c : SushiCache α) (k : Key) (v : Option α) :
    SushiCache α × Bool :=
  let r := deliver ((alGet c.listeners k).getD []) k v
  ({ c with log := c.log ++ r.1 }, r.2)

/-- One iteration of the tag-cleanup loop in `delete`: remove the key from
one tag's key set and drop the set if it became empty. -/
def rkStep (k : Key) (tm : List (String × List Key)) (tag : String) :
    List (String × List Key) :=
  match alGet tm tag with
  | none => tm
  | some ks =>
    let ks' := ks.filter (fun k' => k' ≠ k)
    if ks' = [] then alDelete tm tag else alSet tm tag ks'

/-- Tag-map cleanup inside `delete`: for each tag of the removed entry,
remove the key from the tag's key set and drop the set if it became empty. -/
def removeKeyFromTags (tm : List (String × List Key)) (tags : List String)
    (k : Key) : List (String × List Key) :=
  tags.foldl (rkStep k) tm

/-- One iteration of the tag-map update loop in `set`: register the key
under one tag, creating the tag's set when missing (`Set.add` is a no-op on
a present member). -/
def akStep (k : Key) (tm : List (String × List Key)) (tag : String) :
    List (String × List Key) :=
  match alGet tm tag with
  | none => tm ++ [(tag, [k])]
  | some ks => alSet tm tag (if k ∈ ks then ks else ks ++ [k])

/-- Tag-map update inside `set`: register the key under each of the entry's
tags. -/
def addKeyToTags (tm : List (String × List Key)) (tags : List String)
    (k : Key) : List (String × List Key) :=
  tags.foldl (akStep k) tm

/-- `SushiCache.delete` (part_001 lines 164-183).  On a present key: detach
the entry's tags from the tag map, invoke `onEvict`, remove the entry, then
notify subscribers with the `null` sentinel.  On an absent key: no-op.
The second component is `none` when a listener threw. -/
def SushiCache.delete (c : SushiCache α) (k : Key) :
    SushiCache α × Option Unit :=
  match alGet c.store k with
  | none => (c, some ())
  | some entry =>
    let c1 : SushiCache α :=
      { c with
        tagMap := removeKeyFromTags c.tagMap entry.tags k
        evictLog := c.evictLog ++ [⟨k, entry.data⟩]
        store := alDelete c.store k }
    let r := c1.notify k none
    (r.1, if r.2 then none else some ())

/-- Does the store size exceed the configured bound (`none` = `Infinity`)? -/
def sizeExceeds (n : Nat) : Option Nat → Bool
  | none => false
  | some m => m < n

/-- The `while` loop of `evictIfNeeded` (part_001 lines 227-236), with a
fuel argument bounding the iteration count; every iteration deletes the
oldest (head) entry, so `store.length` fuel always suffices. -/
def evictGo (c : SushiCache α) : Nat → SushiCache α × Option Unit
  | 0 => (c, some ())
  | fuel + 1 =>
    if sizeExceeds c.store.length c.maxSize then
      match c.store with
      | [] => (c, some ())
      | p :: _ =>
        match c.delete p.1 with
        | (c', some _) => evictGo c' fuel
        | (c', none) => (c', none)
    else (c, some ())

/-- `SushiCache.evictIfNeeded`: evict oldest entries while the size bound
is exceeded. -/
def SushiCache.evictIfNeeded (c : SushiCache α) : SushiCache α × Option Unit :=
  evictGo c c.store.length

/-- The unconditional tail of `set` (part_001 lines 96-114): insert the new
entry (the key is absent at this point, so `Map.set` appends at the most
recent position), register its tags, evict while over the size bound, then
notify the key's subscribers with the new data. -/
def setCore (c1 : SushiCache α) (k : Key) (d : α) (now ttl : Nat)
    (tags : List String) : SushiCache α × Option Unit :=
  let c2 : SushiCache α :=
    { c1 with
      store := alSet c1.store k ⟨d, now + ttl, now, tags⟩
      tagMap := addKeyToTags c1.tagMap tags k }
  match c2.evictIfNeeded with
  | (c3, none) => (c3, none)
  | (c3, some _) =>
    let r := c3.notify k (some d)
    (r.1, if r.2 then none else some ())

/-- `SushiCache.set` (part_001 lines 87-115) with the option bag already
normalized to an explicit `ttl` and `tags` (the code's `number` form passes
`tags = []`, omitted fields default to `defaultTTL` and `[]`).  `now` is
the single `Date.now()` read at the top of `set`.  A key that is already
present is first removed via `delete` (clearing its old tag associations
and notifying `null`); an exception from that delete propagates before the
new entry is written. -/
def SushiCache.set (c : SushiCache α) (k : Key) (d : α) (now ttl : Nat)
    (tags : List String) : SushiCache α × Option Unit :=
  match alGet c.store k with
  | none => setCore c k d now ttl tags
  | some _ =>
    match c.delete k with
    | (c1, none) => (c1, none)
    | (c1, some _) => setCore c1 k d now ttl tags

/-- `SushiCache.get` (part_001 lines 117-145): miss on absent key; lazy
expiry (delete + miss) when `now > expiry`; otherwise refresh `lastAccess`
(and the expiry in sliding mode), move the entry to the most recent
position, count a hit and return the payload.  The result is `none` when a
listener threw during the lazy-expiry delete, `some none` on a miss and
`some (some v)` on a hit. -/
def SushiCache.get (c : SushiCache α) (k : Key) (now : Nat) :
    SushiCache α × Option (Option α) :=
  match alGet c.store k with
  | none => ({ c with misses := c.misses + 1 }, some none)
  | some entry =>
    if entry.expiry < now then
      match c.delete k with
      | (c1, none) => (c1, none)
      | (c1, some _) => ({ c1 with misses := c1.misses + 1 }, some none)
    else
      let entry' : CacheEntry α :=
        { entry with
          lastAccess := now
          expiry := if c.sliding then now + c.defaultTTL else entry.expiry }
      ({ c with
          store := alDelete c.store k ++ [(k, entry')]
          hits := c.hits + 1 }, some (some entry'.data))

/-- `SushiCache.peek` (part_001 lines 147-158): like `get` but with no
recency promotion and no statistics; an expired entry is still purged
(silently) and reported absent. -/
def SushiCache.peek (c : SushiCache α) (k : Key) (now : Nat) :
    SushiCache α × Option (Option α) :=
  match alGet c.store k with
  | none => (c, some none)
  | some entry =>
    if entry.expiry < now then
      match c.delete k with
      | (c1, none) => (c1, none)
      | (c1, some _) => (c1, some none)
    else (c, some (some entry.data))

/-- `SushiCache.subscribe` (part_001 lines 63-75), registration half:
add the listener to the key's set, creating the set when missing. -/
def SushiCache.subscribe (c : SushiCache α) (k : Key) (l : Listener) :
    SushiCache α :=
  match alGet c.listeners k with
  | none => { c with listeners := c.listeners ++ [(k, [l])] }
  | some ls =>
    { c with listeners := alSet c.listeners k (if l ∈ ls then ls else ls ++ [l]) }

/-- `SushiCache.mutate` (part_001 lines 188-197): read the current value via
`get`, read the (possibly re-inserted) entry to preserve its tags, apply the
updater, then `set` the result.  A literal replacement value is the constant
updater. -/
def SushiCache.mutate (c : SushiCache α) (k : Key) (f : Option α → α)
    (now ttl : Nat) : SushiCache α × Option α :=
  match c.get k now with
  | (c1, none) => (c1, none)
  | (c1, some oldData) =>
    let tags := match alGet c1.store k with
      | some e => e.tags
      | none => []
    let newData := f oldData
    match c1.set k newData now ttl tags with
    | (c2, none) => (c2, none)
    | (c2, some _) => (c2, some newData)

/-- Sequential deletion of a snapshot of keys (the `Array.from(keys).forEach`
inside `invalidateTag`); a listener throw aborts the iteration. -/
def deleteKeys (c : SushiCache α) : List Key → SushiCache α × Option Unit
  | [] => (c, some ())
  | k :: ks =>
    match c.delete k with
    | (c', some _) => deleteKeys c' ks
    | (c', none) => (c', none)

/-- `SushiCache.invalidateTag` (part_001 lines 199-206): delete every key
currently indexed under the tag (iterating over a snapshot), then drop the
tag's index entry. -/
def SushiCache.invalidateTag (c : SushiCache α) (tag : String) :
    SushiCache α × Option Unit :=
  match alGet c.tagMap tag with
  | none => (c, some ())
  | some ks =>
    match deleteKeys c ks with
    | (c', none) => (c', none)
    | (c', some _) => ({ c' with tagMap := alDelete c'.tagMap tag }, some ())

/-- The notification loop at the end of `clear`: notify every currently
subscribed key with the `null` sentinel. -/
def notifyKeys (c : SushiCache α) : List Key → SushiCache α × Option Unit
  | [] => (c, some ())
  | k :: ks =>
    let r := c.notify k none
    if r.2 then (r.1, none) else notifyKeys r.1 ks

/-- `SushiCache.clear` (part_001 lines 208-221): invoke `onEvict` for every
entry, empty the store and the tag map, then notify all subscribed keys. -/
def SushiCache.clear (c : SushiCache α) : SushiCache α × Option Unit :=
  let c1 : SushiCache α :=
    { c with
      evictLog := c.evictLog ++ c.store.map (fun p => ⟨p.1, p.2.data⟩)
      store := []
      tagMap := [] }
  notifyKeys c1 (c1.listeners.map Prod.fst)

/-- No registered listener throws when invoked. -/
def noThrow (c : SushiCache α) : Prop :=
  ∀ p ∈ c.listeners, ∀ l ∈ p.2, l.throws = false

instance (c : SushiCache α) : Decidable (noThrow c) := by
  unfold noThrow
  infer_instance

/-- A key is indexed under a tag in the tag map. -/
def tagHasKey (c : SushiCache α) (tag : String) (k : Key) : Prop :=
  k ∈ (alGet c.tagMap tag).getD []

/-- The entry stored at a key carries the tag. -/
def entryHasTag (c : SushiCache α) (tag : String) (k : Key) : Prop :=
  ∃ e, alGet c.store k = some e ∧ tag ∈ e.tags

/-- The tag-index invariant of the spec: a key appears under tag `T` iff the
corresponding entry's `tags` contains `T`. -/
def TagInv (c : SushiCache α) : Prop :=
  ∀ tag k, tagHasKey c tag k ↔ entryHasTag c tag k

/-- Well-formedness: the two maps have no duplicate keys and the tag-index
invariant holds. -/
def WF (c : SushiCache α) : Prop :=
  (c.store.map Prod.fst).Nodup ∧ (c.tagMap.map Prod.fst).Nodup ∧ TagInv c

/-! ### Supporting lemmas about the cache operations -/

theorem alGet_mem_keys {β : Type} (l : List (Key × β)) (k : Key) (v : β)
    (h : alGet l k = some v) : k ∈ l.map Prod.fst :=
  List.mem_map.mpr ⟨(k, v), alGet_mem_of_some l k v h, rfl⟩

theorem deliver_noThrow (ls : List Listener) (k : Key) (v : Option α)
    (h : ∀ l ∈ ls, l.throws = false) :
    deliver ls k v = (ls.map fun l => (⟨l.id, k, v⟩ : Notif α), false) := by
  induction ls with
  | nil => rfl
  | cons l ls ih =>
    have hl : l.throws = false := h l (List.mem_cons_self _ _)
    have hrest : ∀ l' ∈ ls, l'.throws = false :=
      fun l' hm => h l' (List.mem_cons_of_mem _ hm)
    simp [deliver, hl, ih hrest]

theorem noThrow_key (c : SushiCache α) (k : Key) (h : noThrow c) :
    ∀ l ∈ (alGet c.listeners k).getD [], l.throws = false := by
  intro l hl
  match hg : alGet c.listeners k with
  | none => rw [hg] at hl; simp at hl
  | some ls =>
    rw [hg] at hl
    exact h (k, ls) (alGet_mem_of_some _ _ _ hg) l hl

theorem notify_noThrow (c : SushiCache α) (k : Key) (v : Option α)
    (h : noThrow c) :
    c.notify k v =
      ({ c with log := c.log ++
          ((alGet c.listeners k).getD []).map fun l => ⟨l.id, k, v⟩ }, false) := by
  unfold SushiCache.notify
  rw [deliver_noThrow _ _ _ (noThrow_key c k h)]

/-- The configuration and registry fields never touched by the mutating
store operations: listeners, size bound, default TTL, sliding flag. -/
def Frame (c c' : SushiCache α) : Prop :=
  c'.listeners = c.listeners ∧ c'.maxSize = c.maxSize ∧
  c'.defaultTTL = c.defaultTTL ∧ c'.sliding = c.sliding

theorem Frame.refl (c : SushiCache α) : Frame c c := ⟨rfl, rfl, rfl, rfl⟩

theorem Frame.trans {c c' c'' : SushiCache α} (h : Frame c c')
    (h' : Frame c' c'') : Frame c c'' :=
  ⟨h'.1.trans h.1, h'.2.1.trans h.2.1, h'.2.2.1.trans h.2.2.1,
    h'.2.2.2.trans h.2.2.2⟩

theorem delete_frame (c : SushiCache α) (k : Key) :
    Frame c (c.delete k).1 ∧ (c.delete k).1.hits = c.hits ∧
      (c.delete k).1.misses = c.misses := by
  unfold SushiCache.delete
  split
  · exact ⟨Frame.refl c, rfl, rfl⟩
  · exact ⟨⟨rfl, rfl, rfl, rfl⟩, rfl, rfl⟩

theorem delete_store (c : SushiCache α) (k : Key) :
    (c.delete k).1.store = alDelete c.store k := by
  unfold SushiCache.delete
  split
  · next hg =>
    exact (alDelete_of_not_mem c.store k ((alGet_eq_none_iff _ _).mp hg)).symm
  · rfl

theorem evictGo_frame (c : SushiCache α) (fuel : Nat) :
    Frame c (evictGo c fuel).1 ∧ (evictGo c fuel).1.hits = c.hits ∧
      (evictGo c fuel).1.misses = c.misses := by
  induction fuel generalizing c with
  | zero => exact ⟨Frame.refl c, rfl, rfl⟩
  | succ fuel ih =>
    rw [evictGo]
    split
    · split
      · exact ⟨Frame.refl c, rfl, rfl⟩
      · split
        · rename_i q qs heq scr c' u hd
          have hf := delete_frame c q.1
          rw [hd] at hf
          exact ⟨(hf.1).trans (ih c').1, ((ih c').2.1).trans hf.2.1,
            ((ih c').2.2).trans hf.2.2⟩
        · rename_i q qs heq scr c' hd
          have hf := delete_frame c q.1
          rw [hd] at hf
          exact hf
    · exact ⟨Frame.refl c, rfl, rfl⟩

theorem setCore_frame (c1 : SushiCache α) (k : Key) (d : α) (now ttl : Nat)
    (tags : List String) :
    Frame c1 (setCore c1 k d now ttl tags).1 ∧
      (setCore c1 k d now ttl tags).1.hits = c1.hits ∧
      (setCore c1 k d now ttl tags).1.misses = c1.misses := by
  unfold setCore
  dsimp only
  set c2 : SushiCache α :=
    { c1 with
      store := alSet c1.store k ⟨d, now + ttl, now, tags⟩
      tagMap := addKeyToTags c1.tagMap tags k } with hc2
  have hev := evictGo_frame c2 c2.store.length
  split
  · rename_i c3 he
    rw [SushiCache.evictIfNeeded] at he
    rw [he] at hev
    exact hev
  · rename_i c3 u3 he
    rw [SushiCache.evictIfNeeded] at he
    rw [he] at hev
    simp only [SushiCache.notify]
    exact ⟨⟨hev.1.1, hev.1.2.1, hev.1.2.2.1, hev.1.2.2.2⟩, hev.2.1, hev.2.2⟩

theorem set_frame (c : SushiCache α) (k : Key) (d : α) (now ttl : Nat)
    (tags : List String) :
    Frame c (c.set k d now ttl tags).1 ∧
      (c.set k d now ttl tags).1.hits = c.hits ∧
      (c.set k d now ttl tags).1.misses = c.misses := by
  unfold SushiCache.set
  split
  · exact setCore_frame c k d now ttl tags
  · split
    · rename_i c1 hd
      have hf := delete_frame c k
      rw [hd] at hf
      exact hf
    · rename_i c1 u hd
      have hf := delete_frame c k
      rw [hd] at hf
      have hs := setCore_frame c1 k d now ttl tags
      exact ⟨(hf.1).trans hs.1, (hs.2.1).trans hf.2.1, (hs.2.2).trans hf.2.2⟩

theorem alGet_append_single_ne {β : Type} (l : List (Key × β)) (t k : Key)
    (v : β) (hne : k ≠ t) : alGet (l ++ [(t, v)]) k = alGet l k := by
  match hg : alGet l k with
  | some w => exact alGet_append_left l [(t, v)] k w hg
  | none =>
    rw [alGet_append_right l [(t, v)] k hg]
    simp [alGet, Ne.symm hne]

theorem mem_rkStep (tm : List (String × List Key)) (t : String) (k : Key)
    (tag : String) (k' : Key) :
    k' ∈ (alGet (rkStep k tm t) tag).getD [] ↔
      k' ∈ (alGet tm tag).getD [] ∧ ¬(tag = t ∧ k' = k) := by
  unfold rkStep
  match hg : alGet tm t with
  | none =>
    by_cases ht : tag = t
    · subst ht
      simp [hg]
    · simp [ht]
  | some ks =>
    dsimp only
    by_cases he : ks.filter (fun k'' => k'' ≠ k) = []
    · rw [if_pos he]
      by_cases ht : tag = t
      · subst ht
        rw [alGet_alDelete_self, hg]
        simp only [Option.getD_some, Option.getD_none, List.not_mem_nil,
          false_iff]
        intro hc
        have := List.filter_eq_nil_iff.mp he k' hc.1
        simp at this
        exact hc.2 ⟨trivial, this⟩
      · rw [alGet_alDelete_ne tm t tag (fun h => ht h)]
        simp [ht]
    · rw [if_neg he]
      by_cases ht : tag = t
      · subst ht
        rw [alGet_alSet_self, hg]
        simp only [Option.getD_some, List.mem_filter, decide_eq_true_eq]
        constructor
        · intro ⟨h1, h2⟩
          exact ⟨h1, fun hc => h2 hc.2⟩
        · intro ⟨h1, h2⟩
          exact ⟨h1, fun hc => h2 ⟨trivial, hc⟩⟩
      · rw [alGet_alSet_ne tm t tag _ (fun h => ht h)]
        simp [ht]

theorem mem_removeKeyFromTags (tags : List String)
    (tm : List (String × List Key)) (k : Key) (tag : String) (k' : Key) :
    k' ∈ (alGet (removeKeyFromTags tm tags k) tag).getD [] ↔
      k' ∈ (alGet tm tag).getD [] ∧ ¬(tag ∈ tags ∧ k' = k) := by
  induction tags generalizing tm with
  | nil => simp [removeKeyFromTags]
  | cons t ts ih =>
    show k' ∈ (alGet (removeKeyFromTags (rkStep k tm t) ts k) tag).getD [] ↔ _
    rw [ih, mem_rkStep]
    simp only [List.mem_cons]
    constructor
    · intro ⟨⟨h1, h2⟩, h3⟩
      exact ⟨h1, fun hc => by
        rcases hc.1 with hc1 | hc1
        · exact h2 ⟨hc1, hc.2⟩
        · exact h3 ⟨hc1, hc.2⟩⟩
    · intro ⟨h1, h2⟩
      exact ⟨⟨h1, fun hc => h2 ⟨Or.inl hc.1, hc.2⟩⟩,
        fun hc => h2 ⟨Or.inr hc.1, hc.2⟩⟩

theorem rkStep_keys_nodup (tm : List (String × List Key)) (t : String)
    (k : Key) (h : (tm.map Prod.fst).Nodup) :
    ((rkStep k tm t).map Prod.fst).Nodup := by
  unfold rkStep
  match hg : alGet tm t with
  | none => exact h
  | some ks =>
    dsimp only
    by_cases he : ks.filter (fun k'' => k'' ≠ k) = []
    · rw [if_pos he]
      exact alDelete_keys_nodup tm t h
    · rw [if_neg he]
      rw [alSet_keys_of_mem tm t _ (alGet_mem_keys tm t ks hg)]
      exact h

theorem removeKeyFromTags_keys_nodup (tags : List String)
    (tm : List (String × List Key)) (k : Key)
    (h : (tm.map Prod.fst).Nodup) :
    ((removeKeyFromTags tm tags k).map Prod.fst).Nodup := by
  induction tags generalizing tm with
  | nil => exact h
  | cons t ts ih =>
    show ((removeKeyFromTags (rkStep k tm t) ts k).map Prod.fst).Nodup
    exact ih _ (rkStep_keys_nodup tm t k h)

theorem mem_akStep (tm : List (String × List Key)) (t : String) (k : Key)
    (tag : String) (k' : Key) :
    k' ∈ (alGet (akStep k tm t) tag).getD [] ↔
      k' ∈ (alGet tm tag).getD [] ∨ (tag = t ∧ k' = k) := by
  unfold akStep
  match hg : alGet tm t with
  | none =>
    by_cases ht : tag = t
    · subst ht
      rw [alGet_append_right tm [(tag, [k])] tag hg, hg]
      simp [alGet]
    · rw [alGet_append_single_ne tm t tag [k] (fun h => ht h)]
      simp [ht]
  | some ks =>
    dsimp only
    by_cases ht : tag = t
    · subst ht
      rw [alGet_alSet_self, hg]
      by_cases hk : k ∈ ks
      · rw [if_pos hk]
        simp only [Option.getD_some, true_and]
        constructor
        · exact fun h => Or.inl h
        · rintro (h | rfl)
          · exact h
          · exact hk
      · rw [if_neg hk]
        simp
    · rw [alGet_alSet_ne tm t tag _ (fun h => ht h)]
      simp [ht]

theorem mem_addKeyToTags (tags : List String)
    (tm : List (String × List Key)) (k : Key) (tag : String) (k' : Key) :
    k' ∈ (alGet (addKeyToTags tm tags k) tag).getD [] ↔
      k' ∈ (alGet tm tag).getD [] ∨ (tag ∈ tags ∧ k' = k) := by
  induction tags generalizing tm with
  | nil => simp [addKeyToTags]
  | cons t ts ih =>
    show k' ∈ (alGet (addKeyToTags (akStep k tm t) ts k) tag).getD [] ↔ _
    rw [ih, mem_akStep]
    simp only [List.mem_cons]
    constructor
    · rintro ((h | h) | h)
      · exact Or.inl h
      · exact Or.inr ⟨Or.inl h.1, h.2⟩
      · exact Or.inr ⟨Or.inr h.1, h.2⟩
    · rintro (h | ⟨(h1 | h1), h2⟩)
      · exact Or.inl (Or.inl h)
      · exact Or.inl (Or.inr ⟨h1, h2⟩)
      · exact Or.inr ⟨h1, h2⟩

theorem akStep_keys_nodup (tm : List (String × List Key)) (t : String)
    (k : Key) (h : (tm.map Prod.fst).Nodup) :
    ((akStep k tm t).map Prod.fst).Nodup := by
  unfold akStep
  match hg : alGet tm t with
  | none =>
    have ht : t ∉ tm.map Prod.fst := (alGet_eq_none_iff tm t).mp hg
    simp [List.nodup_append, h, ht]
  | some ks =>
    dsimp only
    rw [alSet_keys_of_mem tm t _ (alGet_mem_keys tm t ks hg)]
    exact h

theorem addKeyToTags_keys_nodup (tags : List String)
    (tm : List (String × List Key)) (k : Key)
    (h : (tm.map Prod.fst).Nodup) :
    ((addKeyToTags tm tags k).map Prod.fst).Nodup := by
  induction tags generalizing tm with
  | nil => exact h
  | cons t ts ih =>
    show ((addKeyToTags (akStep k tm t) ts k).map Prod.fst).Nodup
    exact ih _ (akStep_keys_nodup tm t k h)

/-- Well-formedness only looks at the store and the tag map. -/
theorem WF_of_eq {c c' : SushiCache α} (hs : c'.store = c.store)
    (ht : c'.tagMap = c.tagMap) (h : WF c) : WF c' := by
  refine ⟨hs ▸ h.1, ht ▸ h.2.1, fun tag k => ?_⟩
  unfold tagHasKey entryHasTag
  rw [hs, ht]
  exact h.2.2 tag k

theorem WF_delete (c : SushiCache α) (k : Key) (h : WF c) :
    WF (c.delete k).1 := by
  unfold SushiCache.delete
  split
  · exact h
  · rename_i e hg
    refine WF_of_eq (c := ⟨alDelete c.store k,
      removeKeyFromTags c.tagMap e.tags k, c.listeners, c.maxSize,
      c.defaultTTL, c.sliding, c.hits, c.misses, c.log, c.evictLog⟩)
      rfl rfl ?_
    refine ⟨alDelete_keys_nodup c.store k h.1,
      removeKeyFromTags_keys_nodup e.tags c.tagMap k h.2.1, fun tag k' => ?_⟩
    unfold tagHasKey entryHasTag
    show k' ∈ (alGet (removeKeyFromTags c.tagMap e.tags k) tag).getD [] ↔ _
    rw [mem_removeKeyFromTags]
    by_cases hk : k' = k
    · subst hk
      have h1 : k' ∈ (alGet c.tagMap tag).getD [] ↔ tag ∈ e.tags := by
        rw [show (k' ∈ (alGet c.tagMap tag).getD []) = tagHasKey c tag k' from
          rfl, h.2.2 tag k']
        unfold entryHasTag
        rw [hg]
        constructor
        · rintro ⟨e', he', ht'⟩
          cases he'
          exact ht'
        · exact fun ht' => ⟨e, rfl, ht'⟩
      rw [h1, alGet_alDelete_self]
      simp
    · have h2 : alGet (alDelete c.store k) k' = alGet c.store k' :=
        alGet_alDelete_ne c.store k k' hk
      rw [h2]
      have h3 : ¬(tag ∈ e.tags ∧ k' = k) := fun hc => hk hc.2
      simp only [h3, not_false_iff, and_true]
      exact h.2.2 tag k'

theorem WF_evictGo (c : SushiCache α) (fuel : Nat) (h : WF c) :
    WF (evictGo c fuel).1 := by
  induction fuel generalizing c with
  | zero => exact h
  | succ fuel ih =>
    rw [evictGo]
    split
    · split
      · exact h
      · split
        · rename_i q qs heq scr c' u hd
          refine ih c' ?_
          have := WF_delete c q.1 h
          rw [hd] at this
          exact this
        · rename_i q qs heq scr c' hd
          have := WF_delete c q.1 h
          rw [hd] at this
          exact this
    · exact h

theorem WF_setCore (c1 : SushiCache α) (k : Key) (d : α) (now ttl : Nat)
    (tags : List String) (hk : alGet c1.store k = none) (h : WF c1) :
    WF (setCore c1 k d now ttl tags).1 := by
  unfold setCore
  dsimp only
  have hkm : k ∉ c1.store.map Prod.fst := (alGet_eq_none_iff _ _).mp hk
  have hset : alSet c1.store k ⟨d, now + ttl, now, tags⟩ =
      c1.store ++ [(k, ⟨d, now + ttl, now, tags⟩)] :=
    alSet_of_not_mem c1.store k _ hkm
  set c2 : SushiCache α :=
    { c1 with
      store := alSet c1.store k ⟨d, now + ttl, now, tags⟩
      tagMap := addKeyToTags c1.tagMap tags k } with hc2
  have h2 : WF c2 := by
    refine ⟨?_, ?_, ?_⟩
    · show ((alSet c1.store k _).map Prod.fst).Nodup
      rw [hset]
      simp [List.nodup_append, h.1, hkm]
    · exact addKeyToTags_keys_nodup tags c1.tagMap k h.2.1
    · intro tag k'
      unfold tagHasKey entryHasTag
      show k' ∈ (alGet (addKeyToTags c1.tagMap tags k) tag).getD [] ↔ _
      rw [mem_addKeyToTags]
      show _ ↔ ∃ e, alGet (alSet c1.store k _) k' = some e ∧ tag ∈ e.tags
      rw [hset]
      by_cases hkk : k' = k
      · subst hkk
        rw [alGet_append_right c1.store _ k' hk]
        have hfalse : k' ∈ (alGet c1.tagMap tag).getD [] ↔ False := by
          rw [show (k' ∈ (alGet c1.tagMap tag).getD []) =
            tagHasKey c1 tag k' from rfl, h.2.2 tag k']
          unfold entryHasTag
          rw [hk]
          simp
        rw [hfalse]
        simp [alGet]
      · rw [alGet_append_single_ne c1.store k k' _ hkk]
        have : (k' ∈ (alGet c1.tagMap tag).getD []) ↔
            ∃ e, alGet c1.store k' = some e ∧ tag ∈ e.tags := h.2.2 tag k'
        rw [this]
        simp [hkk]
  have hev := WF_evictGo c2 c2.store.length h2
  split
  · rename_i c3 he
    rw [SushiCache.evictIfNeeded] at he
    rw [he] at hev
    exact hev
  · rename_i c3 u3 he
    rw [SushiCache.evictIfNeeded] at he
    rw [he] at hev
    exact WF_of_eq (by simp [SushiCache.notify]) (by simp [SushiCache.notify]) hev

theorem WF_set (c : SushiCache α) (k : Key) (d : α) (now ttl : Nat)
    (tags : List String) (h : WF c) : WF (c.set k d now ttl tags).1 := by
  unfold SushiCache.set
  split
  · rename_i hg
    exact WF_setCore c k d now ttl tags hg h
  · rename_i e hg
    split
    · rename_i c1 hd
      have := WF_delete c k h
      rw [hd] at this
      exact this
    · rename_i c1 u hd
      have hw := WF_delete c k h
      rw [hd] at hw
      have hst := delete_store c k
      rw [hd] at hst
      refine WF_setCore c1 k d now ttl tags ?_ hw
      rw [hst]
      exact alGet_alDelete_self c.store k

theorem WF_get (c : SushiCache α) (k : Key) (now : Nat) (h : WF c) :
    WF (c.get k now).1 := by
  unfold SushiCache.get
  split
  · exact WF_of_eq rfl rfl h
  · rename_i e hg
    split
    · split
      · rename_i c1 hd
        have := WF_delete c k h
        rw [hd] at this
        exact this
      · rename_i c1 u hd
        have := WF_delete c k h
        rw [hd] at this
        exact WF_of_eq rfl rfl this
    · rename_i hexp
      have hnd : k ∉ (alDelete c.store k).map Prod.fst :=
        (alGet_eq_none_iff _ _).mp (alGet_alDelete_self c.store k)
      refine ⟨?_, h.2.1, ?_⟩
      · show ((alDelete c.store k ++ [(k, _)]).map Prod.fst).Nodup
        simp [List.nodup_append, alDelete_keys_nodup c.store k h.1, hnd]
      · intro tag k'
        unfold tagHasKey entryHasTag
        show k' ∈ (alGet c.tagMap tag).getD [] ↔
          ∃ e', alGet (alDelete c.store k ++ [(k, _)]) k' = some e' ∧ _
        by_cases hkk : k' = k
        · subst hkk
          rw [alGet_append_right _ _ k' (alGet_alDelete_self c.store k')]
          have h1 : (k' ∈ (alGet c.tagMap tag).getD []) ↔ tag ∈ e.tags := by
            rw [show (k' ∈ (alGet c.tagMap tag).getD []) =
              tagHasKey c tag k' from rfl, h.2.2 tag k']
            unfold entryHasTag
            rw [hg]
            constructor
            · rintro ⟨e', he', ht'⟩
              cases he'
              exact ht'
            · exact fun ht' => ⟨e, rfl, ht'⟩
          rw [h1]
          simp [alGet]
        · rw [alGet_append_single_ne _ k k' _ hkk,
            alGet_alDelete_ne c.store k k' hkk]
          exact h.2.2 tag k'

theorem WF_mutate (c : SushiCache α) (k : Key) (f : Option α → α)
    (now ttl : Nat) (h : WF c) : WF (c.mutate k f now ttl).1 := by
  unfold SushiCache.mutate
  split
  · rename_i c1 hget
    have := WF_get c k now h
    rw [hget] at this
    exact this
  · rename_i c1 old hget
    have h1 := WF_get c k now h
    rw [hget] at h1
    dsimp only
    set tags0 : List String := (match alGet c1.store k with
      | some e => e.tags
      | none => []) with htags
    split
    · rename_i c2 hset
      have := WF_set c1 k (f old) now ttl tags0 h1
      rw [hset] at this
      exact this
    · rename_i c2 u hset
      have := WF_set c1 k (f old) now ttl tags0 h1
      rw [hset] at this
      exact this

theorem WF_deleteKeys (ks : List Key) (c : SushiCache α) (h : WF c) :
    WF (deleteKeys c ks).1 := by
  induction ks generalizing c with
  | nil => exact h
  | cons k ks ih =>
    rw [deleteKeys]
    split
    · rename_i c' u hd
      refine ih c' ?_
      have := WF_delete c k h
      rw [hd] at this
      exact this
    · rename_i c' hd
      have := WF_delete c k h
      rw [hd] at this
      exact this

theorem deleteKeys_store (ks : List Key) (c c' : SushiCache α)
    (h : deleteKeys c ks = (c', some ())) (key : Key) :
    alGet c'.store key = if key ∈ ks then none else alGet c.store key := by
  induction ks generalizing c with
  | nil =>
    cases h
    simp
  | cons k ks ih =>
    rw [deleteKeys] at h
    split at h
    · rename_i c1 u hd
      have hst := delete_store c k
      rw [hd] at hst
      rw [ih c1 h]
      by_cases hkk : key ∈ ks
      · simp [hkk]
      · rw [if_neg hkk, hst]
        by_cases hke : key = k
        · subst hke
          simp [alGet_alDelete_self]
        · simp only [List.mem_cons, hke, hkk, or_self, if_false]
          exact alGet_alDelete_ne c.store k key hke
    · cases h

theorem WF_invalidateTag (c : SushiCache α) (tag : String) (h : WF c) :
    WF (c.invalidateTag tag).1 := by
  unfold SushiCache.invalidateTag
  split
  · exact h
  · rename_i ks hg
    split
    · rename_i c' hd
      have := WF_deleteKeys ks c h
      rw [hd] at this
      exact this
    · rename_i c' u hd
      obtain rfl : u = () := rfl
      have hw := WF_deleteKeys ks c h
      rw [hd] at hw
      have hst := deleteKeys_store ks c c' hd
      refine ⟨hw.1, alDelete_keys_nodup c'.tagMap tag hw.2.1, ?_⟩
      intro t k'
      unfold tagHasKey entryHasTag
      by_cases ht : t = tag
      · subst ht
        show k' ∈ (alGet (alDelete c'.tagMap t) t).getD [] ↔ _
        rw [alGet_alDelete_self]
        simp only [Option.getD_none, List.not_mem_nil, false_iff]
        rintro ⟨e', he', hte⟩
        by_cases hks : k' ∈ ks
        · rw [hst k', if_pos hks] at he'
          cases he'
        · rw [hst k', if_neg hks] at he'
          have : tagHasKey c t k' := (h.2.2 t k').mpr ⟨e', he', hte⟩
          unfold tagHasKey at this
          rw [hg] at this
          exact hks this
      · show k' ∈ (alGet (alDelete c'.tagMap tag) t).getD [] ↔ _
        rw [alGet_alDelete_ne c'.tagMap tag t ht]
        exact hw.2.2 t k'

theorem notifyKeys_state (ks : List Key) (c : SushiCache α) :
    (notifyKeys c ks).1.store = c.store ∧
      (notifyKeys c ks).1.tagMap = c.tagMap := by
  induction ks generalizing c with
  | nil => exact ⟨rfl, rfl⟩
  | cons k ks ih =>
    rw [notifyKeys]
    split
    · exact ⟨rfl, rfl⟩
    · rename_i hth
      have := ih { c with log := c.log ++ (deliver ((alGet c.listeners k).getD []) k none).1 }
      simpa [SushiCache.notify] using this

theorem WF_clear (c : SushiCache α) : WF c.clear.1 := by
  unfold SushiCache.clear
  dsimp only
  set c1 : SushiCache α :=
    { c with
      evictLog := c.evictLog ++ c.store.map (fun p => ⟨p.1, p.2.data⟩)
      store := []
      tagMap := [] } with hc1
  have h1 : WF c1 := by
    refine ⟨by simp [hc1], by simp [hc1], fun tag k => ?_⟩
    unfold tagHasKey entryHasTag
    simp [hc1, alGet]
  have hs := notifyKeys_state (c1.listeners.map Prod.fst) c1
  exact WF_of_eq hs.1 hs.2 h1

/-! ### Execution lemmas under non-throwing listeners -/

theorem noThrow_of_listeners_eq {c c' : SushiCache α}
    (he : c'.listeners = c.listeners) (h : noThrow c) : noThrow c' := by
  unfold noThrow at h ⊢
  rw [he]
  exact h

/-- Deleting an absent key is a complete no-op (the returned state is the
input state itself). -/
theorem delete_absent (c : SushiCache α) (k : Key)
    (h : alGet c.store k = none) : c.delete k = (c, some ()) := by
  unfold SushiCache.delete
  rw [h]

theorem delete_present_noThrow (c : SushiCache α) (k : Key)
    (e : CacheEntry α) (hnt : noThrow c) (hg : alGet c.store k = some e) :
    c.delete k =
      ({ c with
          tagMap := removeKeyFromTags c.tagMap e.tags k
          evictLog := c.evictLog ++ [⟨k, e.data⟩]
          store := alDelete c.store k
          log := c.log ++
            ((alGet c.listeners k).getD []).map fun l => ⟨l.id, k, none⟩ },
        some ()) := by
  unfold SushiCache.delete
  rw [hg]
  dsimp only
  unfold SushiCache.notify
  dsimp only
  rw [deliver_noThrow ((alGet c.listeners k).getD []) k none
    (noThrow_key c k hnt)]
  rfl

theorem evictGo_maxSize_none (c : SushiCache α) (fuel : Nat)
    (h : c.maxSize = none) : evictGo c fuel = (c, some ()) := by
  cases fuel with
  | zero => rfl
  | succ fuel => simp [evictGo, h, sizeExceeds]

theorem setCore_noBound (c1 : SushiCache α) (k : Key) (d : α) (now ttl : Nat)
    (tags : List String) (hms : c1.maxSize = none) (hnt : noThrow c1) :
    setCore c1 k d now ttl tags =
      ({ c1 with
          store := alSet c1.store k ⟨d, now + ttl, now, tags⟩
          tagMap := addKeyToTags c1.tagMap tags k
          log := c1.log ++
            ((alGet c1.listeners k).getD []).map fun l => ⟨l.id, k, some d⟩ },
        some ()) := by
  unfold setCore
  dsimp only
  set c2 : SushiCache α :=
    { c1 with
      store := alSet c1.store k ⟨d, now + ttl, now, tags⟩
      tagMap := addKeyToTags c1.tagMap tags k } with hc2
  rw [show c2.evictIfNeeded = (c2, some ()) from
    evictGo_maxSize_none c2 c2.store.length (by rw [hc2]; exact hms)]
  dsimp only
  unfold SushiCache.notify
  dsimp only
  rw [show alGet c2.listeners k = alGet c1.listeners k from by rw [hc2]]
  rw [deliver_noThrow ((alGet c1.listeners k).getD []) k (some d)
    (noThrow_key c1 k hnt)]
  simp [hc2]

theorem set_absent_noBound (c : SushiCache α) (k : Key) (d : α)
    (now ttl : Nat) (tags : List String) (hms : c.maxSize = none)
    (hnt : noThrow c) (hg : alGet c.store k = none) :
    c.set k d now ttl tags =
      ({ c with
          store := alSet c.store k ⟨d, now + ttl, now, tags⟩
          tagMap := addKeyToTags c.tagMap tags k
          log := c.log ++
            ((alGet c.listeners k).getD []).map fun l => ⟨l.id, k, some d⟩ },
        some ()) := by
  unfold SushiCache.set
  rw [hg]
  exact setCore_noBound c k d now ttl tags hms hnt

theorem set_present_noBound (c : SushiCache α) (k : Key) (d : α)
    (now ttl : Nat) (tags : List String) (e : CacheEntry α)
    (hms : c.maxSize = none) (hnt : noThrow c)
    (hg : alGet c.store k = some e) :
    c.set k d now ttl tags =
      ({ c with
          store := alSet (alDelete c.store k) k ⟨d, now + ttl, now, tags⟩
          tagMap := addKeyToTags (removeKeyFromTags c.tagMap e.tags k) tags k
          evictLog := c.evictLog ++ [⟨k, e.data⟩]
          log := c.log ++
            (((alGet c.listeners k).getD []).map fun l => ⟨l.id, k, none⟩) ++
            ((alGet c.listeners k).getD []).map fun l => ⟨l.id, k, some d⟩ },
        some ()) := by
  unfold SushiCache.set
  rw [hg]
  dsimp only
  rw [delete_present_noThrow c k e hnt hg]
  dsimp only
  set c1 : SushiCache α :=
    { c with
      tagMap := removeKeyFromTags c.tagMap e.tags k
      evictLog := c.evictLog ++ [⟨k, e.data⟩]
      store := alDelete c.store k
      log := c.log ++
        ((alGet c.listeners k).getD []).map fun l => ⟨l.id, k, none⟩ } with hc1
  rw [setCore_noBound c1 k d now ttl tags (by rw [hc1]; exact hms)
    (noThrow_of_listeners_eq (by rw [hc1]) hnt)]

theorem get_miss_absent (c : SushiCache α) (k : Key) (now : Nat)
    (hg : alGet c.store k = none) :
    c.get k now = ({ c with misses := c.misses + 1 }, some none) := by
  unfold SushiCache.get
  rw [hg]

theorem get_hit (c : SushiCache α) (k : Key) (now : Nat) (e : CacheEntry α)
    (hg : alGet c.store k = some e) (hexp : ¬ e.expiry < now) :
    c.get k now =
      ({ c with
          store := alDelete c.store k ++
            [(k, { e with
                    lastAccess := now
                    expiry := if c.sliding then now + c.defaultTTL
                      else e.expiry })]
          hits := c.hits + 1 },
        some (some e.data)) := by
  unfold SushiCache.get
  rw [hg]
  dsimp only
  rw [if_neg hexp]

theorem get_expired_noThrow (c : SushiCache α) (k : Key) (now : Nat)
    (e : CacheEntry α) (hnt : noThrow c) (hg : alGet c.store k = some e)
    (hexp : e.expiry < now) :
    c.get k now =
      ({ c with
          tagMap := removeKeyFromTags c.tagMap e.tags k
          evictLog := c.evictLog ++ [⟨k, e.data⟩]
          store := alDelete c.store k
          log := c.log ++
            ((alGet c.listeners k).getD []).map fun l => ⟨l.id, k, none⟩
          misses := c.misses + 1 },
        some none) := by
  unfold SushiCache.get
  rw [hg]
  dsimp only
  rw [if_pos hexp, delete_present_noThrow c k e hnt hg]

theorem peek_absent (c : SushiCache α) (k : Key) (now : Nat)
    (hg : alGet c.store k = none) : c.peek k now = (c, some none) := by
  unfold SushiCache.peek
  rw [hg]

theorem peek_live (c : SushiCache α) (k : Key) (now : Nat) (e : CacheEntry α)
    (hg : alGet c.store k = some e) (hexp : ¬ e.expiry < now) :
    c.peek k now = (c, some (some e.data)) := by
  unfold SushiCache.peek
  rw [hg]
  dsimp only
  rw [if_neg hexp]

theorem peek_expired_noThrow (c : SushiCache α) (k : Key) (now : Nat)
    (e : CacheEntry α) (hnt : noThrow c) (hg : alGet c.store k = some e)
    (hexp : e.expiry < now) :
    c.peek k now =
      ({ c with
          tagMap := removeKeyFromTags c.tagMap e.tags k
          evictLog := c.evictLog ++ [⟨k, e.data⟩]
          store := alDelete c.store k
          log := c.log ++
            ((alGet c.listeners k).getD []).map fun l => ⟨l.id, k, none⟩ },
        some none) := by
  unfold SushiCache.peek
  rw [hg]
  dsimp only
  rw [if_pos hexp, delete_present_noThrow c k e hnt hg]

/-! ### Errors and the retry core (src/unnamed/part_003, lines 178-206)

A JavaScript error reaching `retryFetch` is abstracted by its `name` and
optional HTTP `status`.  Network-level failures (`fetch` rejections, abort)
have name `TypeError`/`AbortError` and no status; the unacceptable-status
errors built by `executeRequest` are plain `Error`s carrying a status. -/

structure SushiError where
  name : String
  status : Option Nat
  deriving DecidableEq, Repr

/-- The error `executeRequest` throws for an unacceptable HTTP status
(`new Error(...)` has name `Error`, and `error.status = res.status`). -/
def httpError (s : Nat) : SushiError := ⟨"Error", some s⟩

/-- A network-level failure as produced by `fetch` itself. -/
def networkError : SushiError := ⟨"TypeError", none⟩

/-- The code's test `err.name === "TypeError" || err.name === "AbortError"
|| !err.status` (a missing status and a zero status are both falsy). -/
def isNetworkError (e : SushiError) : Bool :=
  e.name = "TypeError" || e.name = "AbortError" || e.status.getD 0 = 0

/-- The code's test `err.status >= 500` (false when no status is present). -/
def isServerError (e : SushiError) : Bool :=
  match e.status with
  | none => false
  | some s => 500 ≤ s

/-- Default retry eligibility: network-level failure or server error. -/
def defaultShouldRetry (e : SushiError) : Bool :=
  isNetworkError e || isServerError e

/-- Effective eligibility: a user-supplied `retryOn` predicate fully
overrides the default. -/
def shouldRetryEff (retryOn : Option (SushiError → Bool)) (e : SushiError) :
    Bool :=
  match retryOn with
  | some p => p e
  | none => defaultShouldRetry e

/-- The `while (true)` loop of `retryFetch`.  `attempts i` is the outcome of
the i-th transport attempt (0-indexed).  Returns the final outcome and the
number of attempts performed.  The loop increments `attempt` only while
`attempt < retries`, so `retries` fuel makes the fuel-exhaustion arm
unreachable from `retryFetch`. -/
def retryGo {ρ : Type} (attempts : Nat → Except SushiError ρ) (retries : Nat)
    (retryOn : Option (SushiError → Bool)) :
    Nat → Nat → Except SushiError ρ × Nat
  | a, fuel =>
    match attempts a with
    | .ok v => (.ok v, a + 1)
    | .error e =>
      if retries ≤ a ∨ shouldRetryEff retryOn e = false then (.error e, a + 1)
      else
        match fuel with
        | 0 => (.error e, a + 1)
        | fuel + 1 => retryGo attempts retries retryOn (a + 1) fuel

/-- `retryFetch` (part_003 lines 178-206): run attempts until success, the
retry budget is exhausted, or the failure is not retry-eligible; the last
error is propagated. -/
def retryFetch {ρ : Type} (attempts : Nat → Except SushiError ρ)
    (retries : Nat) (retryOn : Option (SushiError → Bool)) :
    Except SushiError ρ × Nat :=
  retryGo attempts retries retryOn 0 retries

/-! ### Cache-key derivation (src/unnamed/part_003, lines 148-172)

`buildCacheKey` feeds `stableStringify` the object
`\x7bmethod, body, headers\x7d` where `headers` is
`Object.fromEntries(new Headers(options.headers).entries())`.
`Headers` lowercases names and iterates in lexicographic order of the
lowercased names, combining duplicate names with a comma-space separator;
`stableStringify` sorts the top-level keys (`body` < `headers` < `method`)
and serializes with `JSON.stringify`, which omits an `undefined` body. -/

/-- `JSON.stringify` escaping of one character inside a string literal. -/
def escChar (ch : Char) : List Char :=
  if ch = '"' then ['\\', '"']
  else if ch = '\\' then ['\\', '\\']
  else if ch = '\n' then ['\\', 'n']
  else if ch = '\r' then ['\\', 'r']
  else if ch = '\t' then ['\\', 't']
  else [ch]

def escList : List Char → List Char
  | [] => []
  | ch :: cs => escChar ch ++ escList cs

/-- A JSON string literal: quote, escape, quote. -/
def jsonQuote (s : String) : String :=
  "\"" ++ String.mk (escList s.data) ++ "\""

/-- Inverse of `escChar` on the character following a backslash. -/
def unescChar (ch : Char) : Option Char :=
  if ch = '"' then some '"'
  else if ch = '\\' then some '\\'
  else if ch = 'n' then some '\n'
  else if ch = 'r' then some '\r'
  else if ch = 't' then some '\t'
  else none

/-- Decoder for `escList`, used to prove the escaping injective. -/
def unesc : List Char → Option (List Char)
  | [] => some []
  | ch :: rest =>
    if ch = '\\' then
      match rest with
      | [] => none
      | x :: rest' =>
        match unescChar x with
        | some d => (unesc rest').map (fun l => d :: l)
        | none => none
    else (unesc rest).map (fun l => ch :: l)

/-- The request body as seen by `buildCacheKey`: absent (`undefined`), a
string, or a `FormData` instance. -/
inductive BodyVal where
  | none
  | str (s : String)
  | formData
  deriving DecidableEq, Repr

/-- The body value placed in the key object:
`options.body instanceof FormData ? "[FormData]" : options.body`. -/
def bodyToJson : BodyVal → Option String
  | .none => Option.none
  | .str s => some s
  | .formData => some "[FormData]"

/-- String lowercasing, character by character (the effect of
`String.toLowerCase` on the header names). -/
def lowerStr (s : String) : String := String.mk (s.data.map Char.toLower)

/-- String uppercasing, character by character (`method.toUpperCase()`). -/
def upperStr (s : String) : String := String.mk (s.data.map Char.toUpper)

/-- Lowercase a header name (`Headers` normalization). -/
def lowerPair (p : String × String) : String × String := (lowerStr p.1, p.2)

/-- One `Headers.append` step: a repeated (already lowercased) name has its
value joined to the existing one with a comma and a space, a new name is
appended. -/
def chStep (acc : List (String × String)) (p : String × String) :
    List (String × String) :=
  match alGet acc p.1 with
  | some v0 => alSet acc p.1 (v0 ++ ", " ++ p.2)
  | none => acc ++ [(p.1, p.2)]

/-- Combine duplicate (already lowercased) header names in insertion order,
as `new Headers(init)` does. -/
def combineHeaders (hs : List (String × String)) : List (String × String) :=
  hs.foldl chStep []

/-- Lexicographic comparison of character lists by code point; `Headers`
iterates its entries in this order of the lowercased names. -/
def charsLe : List Char → List Char → Bool
  | [], _ => true
  | _ :: _, [] => false
  | a :: as, b :: bs => if a < b then true else if b < a then false else charsLe as bs

/-- The name order of `Headers` iteration. -/
def strle (s t : String) : Prop := charsLe s.data t.data = true

instance : DecidableRel strle := fun s t => by
  unfold strle
  infer_instance

/-- The `Headers` iteration view: lowercased, combined, sorted by name. -/
def normalizeHeaders (hs : List (String × String)) : List (String × String) :=
  let comb := combineHeaders (hs.map lowerPair)
  (List.insertionSort strle (comb.map Prod.fst)).map
    (fun n => (n, (alGet comb n).getD ""))

def joinComma : List String → String
  | [] => ""
  | [s] => s
  | s :: rest => s ++ "," ++ joinComma rest

/-- `JSON.stringify` of the headers object (keys in iteration order). -/
def headersJson (hs : List (String × String)) : String :=
  "\x7b" ++
    joinComma ((normalizeHeaders hs).map
      (fun p => jsonQuote p.1 ++ ":" ++ jsonQuote p.2)) ++
  "\x7d"

/-- `stableStringify` applied to the key object: top-level keys sorted to
`body`, `headers`, `method`; an `undefined` body is omitted by
`JSON.stringify`. -/
def stableStringifyReq (method : String) (body : Option String)
    (hs : List (String × String)) : String :=
  "\x7b" ++
    (match body with
      | some b => "\"body\":" ++ jsonQuote b ++ ","
      | Option.none => "") ++
    "\"headers\":" ++ headersJson hs ++ ",\"method\":" ++ jsonQuote method ++
  "\x7d"

/-- `buildCacheKey` (part_003 lines 164-172). -/
def buildCacheKey (url : String) (method : Option String) (body : BodyVal)
    (hs : List (String × String)) : String :=
  url ++ "::" ++
    stableStringifyReq (upperStr (method.getD "GET")) (bodyToJson body) hs

/-! ### In-flight deduplication (src/unnamed/part_003, lines 419-450)

`fetcher` runs synchronously from entry through
`pendingRequests.set(key, requestPromise)`: in the single-threaded
cooperative model no other call can interleave between the
`pendingRequests.has(key)` check and the registration, so the pair is
atomic.  A pending result (JS promise) is identified by a numeric id;
callers holding the same id observe the same settled outcome.  The
`finally` clause deletes the entry whatever way the promise body ended. -/

/-- How one `requestPromise` settles: normal success, a stale-fallback
return from the catch branch, or a raised error. -/
inductive Outcome (ρ : Type) where
  | success (v : ρ)
  | staleFallback (v : ρ)
  | raised (e : SushiError)
  deriving DecidableEq, Repr

/-- Global orchestration state: the `pendingRequests` map (key → promise
id), the number of transport sequences started, and the id supply. -/
structure DedupState where
  pending : List (Key × Nat)
  transportCount : Nat
  nextId : Nat
  deriving DecidableEq, Repr

/-- The synchronous section of one `fetcher` call on the cache-miss (cold)
path: join the pending promise for the key when one exists, otherwise start
one transport sequence and register its promise.  Returns the promise id
handed to the caller. -/
def fetcherCallCold (s : DedupState) (k : Key) : DedupState × Nat :=
  match alGet s.pending k with
  | some pid => (s, pid)
  | none =>
    ({ pending := s.pending ++ [(k, s.nextId)]
       transportCount := s.transportCount + 1
       nextId := s.nextId + 1 }, s.nextId)

/-- The `finally \x7b pendingRequests.delete(key) \x7d` cleanup: runs when
the promise settles, for every outcome alike (the outcome argument is
ignored). -/
def fetcherSettle {ρ : Type} (s : DedupState) (k : Key) (_o : Outcome ρ) :
    DedupState :=
  { s with pending := alDelete s.pending k }

/-- `n` back-to-back cold calls for the same key with no settlement in
between (the concurrent-burst scenario); returns the promise ids handed to
the callers, in call order. -/
def callN (s : DedupState) (k : Key) : Nat → DedupState × List Nat
  | 0 => (s, [])
  | n + 1 =>
    let r1 := fetcherCallCold s k
    let r2 := callN r1.1 k n
    (r2.1, r1.2 :: r2.2)

/-! ### The request flow of one uninterleaved `fetcher` call
(src/unnamed/part_003, lines 402-450)

`transport` is the settled outcome of `executeRequest` (the retry loop's
final result).  The flow is: optional cache lookup (skipped under `force`
or `cache: false`); on a miss, run the transport; on success write to the
cache when caching is enabled and return the data (a listener throw inside
that `cache.set` is caught by the catch branch like any other error); on
failure, `peek` for a fallback value — return it if present, otherwise
re-raise. -/

inductive FetchResult (α : Type) where
  | value (v : α)
  | failure (e : SushiError)
  | listenerThrew
  deriving DecidableEq, Repr

/-- The catch branch of `requestPromise`: `cache.peek(key)` and either the
fallback value or the propagated failure. -/
def fetchCatch (c : SushiCache α) (k : Key) (now : Nat)
    (err : FetchResult α) : SushiCache α × FetchResult α :=
  match c.peek k now with
  | (c1, some (some v)) => (c1, .value v)
  | (c1, some Option.none) => (c1, err)
  | (c1, Option.none) => (c1, .listenerThrew)

/-- The body of `requestPromise` after a cache miss. -/
def fetchMiss (c : SushiCache α) (k : Key) (now : Nat) (useCache : Bool)
    (transport : Except SushiError α) (ttl : Nat) (tags : List String) :
    SushiCache α × FetchResult α :=
  match transport with
  | .ok d =>
    if useCache then
      match c.set k d now ttl tags with
      | (c1, some _) => (c1, .value d)
      | (c1, Option.none) => fetchCatch c1 k now .listenerThrew
    else (c, .value d)
  | .error e => fetchCatch c k now (.failure e)

/-- One complete, uninterleaved `fetcher` call (empty in-flight table). -/
def fetchFlow (c : SushiCache α) (k : Key) (now : Nat)
    (useCache force : Bool) (transport : Except SushiError α) (ttl : Nat)
    (tags : List String) : SushiCache α × FetchResult α :=
  if !force && useCache then
    match c.get k now with
    | (c1, some (some v)) => (c1, .value v)
    | (c1, some Option.none) => fetchMiss c1 k now useCache transport ttl tags
    | (c1, Option.none) => (c1, .listenerThrew)
  else fetchMiss c k now useCache transport ttl tags

/-! ### Concrete states used by witnesses and counterexamples -/

/-- A fresh unbounded cache (the `new SushiCache()` default except that the
statistics and logs start empty). -/
def emptyN : SushiCache Nat :=
  ⟨[], [], [], none, 5000, false, 0, 0, [], []⟩

/-- A cache holding one live tagged entry. -/
def cacheA : SushiCache Nat :=
  ⟨[("x", ⟨1, 10, 0, ["t"]⟩)], [("t", ["x"])], [], none, 5000, false,
    0, 0, [], []⟩

theorem noThrow_of_nil {α : Type} (c : SushiCache α)
    (h : c.listeners = []) : noThrow c := by
  intro p hp
  rw [h] at hp
  exact absurd hp (List.not_mem_nil p)

/-! ### C10 -/

/-- C10: for every key absent from the store, `delete` is a complete no-op:
store, tag index, hit/miss statistics, eviction-callback log and
notification log are all unchanged, and no exception escapes. -/
theorem delete_absent_frame {α : Type} (c : SushiCache α) (k : Key)
    (h : alGet c.store k = none) :
    (c.delete k).1.store = c.store ∧ (c.delete k).1.tagMap = c.tagMap ∧
    (c.delete k).1.hits = c.hits ∧ (c.delete k).1.misses = c.misses ∧
    (c.delete k).1.evictLog = c.evictLog ∧ (c.delete k).1.log = c.log ∧
    (c.delete k).2 = some () := by
  rw [delete_absent c k h]
  exact ⟨rfl, rfl, rfl, rfl, rfl, rfl, rfl⟩

theorem delete_absent_frame_witness :
    alGet cacheA.store "y" = none ∧
    ((cacheA.delete "y").1.store = cacheA.store ∧
      (cacheA.delete "y").1.tagMap = cacheA.tagMap ∧
      (cacheA.delete "y").1.hits = cacheA.hits ∧
      (cacheA.delete "y").1.misses = cacheA.misses ∧
      (cacheA.delete "y").1.evictLog = cacheA.evictLog ∧
      (cacheA.delete "y").1.log = cacheA.log ∧
      (cacheA.delete "y").2 = some ()) :=
  ⟨by decide, delete_absent_frame cacheA "y" (by decide)⟩

/-! ### C3 -/

/-- C3: after `set(k, v, ttl = T)` at time `s` (unbounded cache,
non-throwing listeners), a `get(k)` strictly before `s + T` returns `v`,
and a `get(k)` strictly after `s + T` reports the key absent, removes the
entry as a side effect and counts a miss. -/
theorem ttl_set_get_correct {α : Type} (c : SushiCache α) (k : Key) (v : α)
    (s T : Nat) (hms : c.maxSize = none) (hnt : noThrow c) :
    (c.set k v s T []).2 = some () ∧
    (∀ t, t < s + T → ((c.set k v s T []).1.get k t).2 = some (some v)) ∧
    (∀ t, s + T < t →
      ((c.set k v s T []).1.get k t).2 = some Option.none ∧
      alGet ((c.set k v s T []).1.get k t).1.store k = none ∧
      ((c.set k v s T []).1.get k t).1.misses = c.misses + 1) := by
  have hkey : alGet (c.set k v s T []).1.store k = some ⟨v, s + T, s, []⟩ ∧
      (c.set k v s T []).2 = some () := by
    match hg : alGet c.store k with
    | none =>
      rw [set_absent_noBound c k v s T [] hms hnt hg]
      exact ⟨alGet_alSet_self c.store k _, rfl⟩
    | some e0 =>
      rw [set_present_noBound c k v s T [] e0 hms hnt hg]
      exact ⟨alGet_alSet_self (alDelete c.store k) k _, rfl⟩
  have hnt1 : noThrow (c.set k v s T []).1 :=
    noThrow_of_listeners_eq (set_frame c k v s T []).1.1 hnt
  have hmiss : (c.set k v s T []).1.misses = c.misses :=
    (set_frame c k v s T []).2.2
  refine ⟨hkey.2, ?_, ?_⟩
  · intro t ht
    rw [get_hit (c.set k v s T []).1 k t ⟨v, s + T, s, []⟩ hkey.1
      (by simp only []; omega)]
  · intro t ht
    rw [get_expired_noThrow (c.set k v s T []).1 k t ⟨v, s + T, s, []⟩ hnt1
      hkey.1 (by simp only []; omega)]
    refine ⟨rfl, alGet_alDelete_self _ k, ?_⟩
    simp [hmiss]

theorem ttl_set_get_correct_witness :
    (emptyN.maxSize = none ∧ noThrow emptyN) ∧
    ((emptyN.set "k" 7 0 100 []).1.get "k" 50).2 = some (some 7) ∧
    ((emptyN.set "k" 7 0 100 []).1.get "k" 200).2 = some Option.none ∧
    alGet ((emptyN.set "k" 7 0 100 []).1.get "k" 200).1.store "k" = none :=
  ⟨⟨rfl, noThrow_of_nil emptyN rfl⟩,
    (ttl_set_get_correct emptyN "k" 7 0 100 rfl
      (noThrow_of_nil emptyN rfl)).2.1 50 (by omega),
    ((ttl_set_get_correct emptyN "k" 7 0 100 rfl
      (noThrow_of_nil emptyN rfl)).2.2 200 (by omega)).1,
    ((ttl_set_get_correct emptyN "k" 7 0 100 rfl
      (noThrow_of_nil emptyN rfl)).2.2 200 (by omega)).2.1⟩

/-! ### C1 -/

theorem callN_pending_some (n : Nat) (s : DedupState) (k : Key) (pid : Nat)
    (h : alGet s.pending k = some pid) :
    callN s k n = (s, List.replicate n pid) := by
  induction n with
  | zero => rfl
  | succ n ih =>
    rw [callN]
    rw [show fetcherCallCold s k = (s, pid) from by
      unfold fetcherCallCold; rw [h]]
    dsimp only
    rw [ih, List.replicate_succ]

/-- C1: while an in-flight entry for a key exists, a further cold call joins
it (same promise id, no state change, no new transport); `n + 1`
back-to-back cold calls on a key with no in-flight entry hand every caller
the same promise id and start exactly one transport, leaving exactly one
in-flight entry for the key; the in-flight table keeps at most one entry
per key; and settlement removes the key's entry whatever the outcome
(success, stale fallback, or raised failure). -/
theorem dedup_single_transport :
    (∀ (s : DedupState) (k : Key) (pid : Nat),
      alGet s.pending k = some pid → fetcherCallCold s k = (s, pid)) ∧
    (∀ (s : DedupState) (k : Key) (n : Nat), alGet s.pending k = none →
      (callN s k (n + 1)).2 = List.replicate (n + 1) s.nextId ∧
      (callN s k (n + 1)).1.transportCount = s.transportCount + 1 ∧
      alGet (callN s k (n + 1)).1.pending k = some s.nextId ∧
      ((callN s k (n + 1)).1.pending.map Prod.fst).count k = 1) ∧
    (∀ (s : DedupState) (k : Key), (s.pending.map Prod.fst).Nodup →
      ((fetcherCallCold s k).1.pending.map Prod.fst).Nodup ∧
      (s.pending.map Prod.fst).count k ≤ 1 ∧
      ∀ (o : Outcome Nat),
        ((fetcherSettle s k o).pending.map Prod.fst).Nodup) ∧
    (∀ (s : DedupState) (k : Key) (o : Outcome Nat),
      alGet (fetcherSettle s k o).pending k = none) := by
  refine ⟨?_, ?_, ?_, ?_⟩
  · intro s k pid h
    unfold fetcherCallCold
    rw [h]
  · intro s k n h
    set s1 : DedupState :=
      { pending := s.pending ++ [(k, s.nextId)]
        transportCount := s.transportCount + 1
        nextId := s.nextId + 1 } with hs1
    have hcall : fetcherCallCold s k = (s1, s.nextId) := by
      unfold fetcherCallCold
      rw [h]
    have h1 : alGet s1.pending k = some s.nextId := by
      rw [hs1]
      show alGet (s.pending ++ [(k, s.nextId)]) k = some s.nextId
      rw [alGet_append_right s.pending _ k h]
      simp [alGet]
    rw [callN]
    dsimp only
    rw [hcall]
    dsimp only
    rw [callN_pending_some n s1 k s.nextId h1]
    refine ⟨by rw [List.replicate_succ], rfl, h1, ?_⟩
    show ((s.pending ++ [(k, s.nextId)]).map Prod.fst).count k = 1
    rw [List.map_append, List.count_append]
    have hz : (s.pending.map Prod.fst).count k = 0 :=
      List.count_eq_zero.mpr ((alGet_eq_none_iff s.pending k).mp h)
    simp [hz, List.count_singleton]
  · intro s k hnd
    refine ⟨?_, List.nodup_iff_count_le_one.mp hnd k, ?_⟩
    · unfold fetcherCallCold
      match hg : alGet s.pending k with
      | some pid => exact hnd
      | none =>
        dsimp only
        have hk : k ∉ s.pending.map Prod.fst :=
          (alGet_eq_none_iff s.pending k).mp hg
        simp [List.nodup_append, hnd, hk]
    · intro o
      exact alDelete_keys_nodup s.pending k hnd
  · intro s k o
    exact alGet_alDelete_self s.pending k

def dedupS0 : DedupState := ⟨[], 0, 0⟩

def dedupS1 : DedupState := ⟨[("k", 5)], 1, 6⟩

theorem dedup_single_transport_witness :
    (alGet dedupS1.pending "k" = some 5 ∧
      fetcherCallCold dedupS1 "k" = (dedupS1, 5)) ∧
    (alGet dedupS0.pending "k" = none ∧
      (callN dedupS0 "k" 3).2 = List.replicate 3 0 ∧
      (callN dedupS0 "k" 3).1.transportCount = 1) ∧
    alGet (fetcherSettle dedupS1 "k" (Outcome.success (7 : Nat))).pending "k"
      = none :=
  ⟨⟨by decide, dedup_single_transport.1 dedupS1 "k" 5 (by decide)⟩,
    ⟨by decide,
      (dedup_single_transport.2.1 dedupS0 "k" 2 (by decide)).1,
      (dedup_single_transport.2.1 dedupS0 "k" 2 (by decide)).2.1⟩,
    dedup_single_transport.2.2.2 dedupS1 "k" (Outcome.success 7)⟩

/-! ### C8 -/

theorem retryGo_count_ge {ρ : Type} (att : Nat → Except SushiError ρ)
    (retries : Nat) (ron : Option (SushiError → Bool)) (fuel : Nat) :
    ∀ a, a + 1 ≤ (retryGo att retries ron a fuel).2 := by
  induction fuel with
  | zero =>
    intro a
    rw [retryGo]
    split
    · simp
    · split
      · simp
      · simp
  | succ fuel ih =>
    intro a
    rw [retryGo]
    split
    · simp
    · split
      · simp
      · dsimp only
        have := ih (a + 1)
        omega

theorem retryGo_count_le {ρ : Type} (att : Nat → Except SushiError ρ)
    (retries : Nat) (ron : Option (SushiError → Bool)) (fuel : Nat) :
    ∀ a, a ≤ retries → (retryGo att retries ron a fuel).2 ≤ retries + 1 := by
  induction fuel with
  | zero =>
    intro a ha
    rw [retryGo]
    split
    · simpa using ha
    · split
      · simpa using ha
      · simpa using ha
  | succ fuel ih =>
    intro a ha
    rw [retryGo]
    split
    · simpa using ha
    · split
      · simpa using ha
      · rename_i e hcond
        have hlt : a < retries := by
          by_contra hc
          exact hcond (Or.inl (by omega))
        exact ih (a + 1) hlt

theorem retryGo_stop {ρ : Type} (att : Nat → Except SushiError ρ)
    (retries : Nat) (ron : Option (SushiError → Bool)) (fuel a : Nat)
    (e : SushiError) (hatt : att a = .error e)
    (hcond : retries ≤ a ∨ shouldRetryEff ron e = false) :
    retryGo att retries ron a fuel = (.error e, a + 1) := by
  cases fuel with
  | zero =>
    rw [retryGo, hatt]
    dsimp only
    rw [if_pos hcond]
  | succ fuel =>
    rw [retryGo, hatt]
    dsimp only
    rw [if_pos hcond]

theorem retryGo_step {ρ : Type} (att : Nat → Except SushiError ρ)
    (retries : Nat) (ron : Option (SushiError → Bool)) (fuel a : Nat)
    (e : SushiError) (hatt : att a = .error e) (hlt : ¬ retries ≤ a)
    (heff : shouldRetryEff ron e = true) :
    retryGo att retries ron a (fuel + 1) =
      retryGo att retries ron (a + 1) fuel := by
  rw [retryGo, hatt]
  dsimp only
  rw [if_neg (by simp [hlt, heff])]

theorem retryGo_exhaust {ρ : Type} (att : Nat → Except SushiError ρ)
    (retries : Nat) (ron : Option (SushiError → Bool))
    (es : Nat → SushiError) (fuel : Nat) :
    ∀ a, a + fuel = retries →
    (∀ i, a ≤ i → i ≤ retries →
      att i = .error (es i) ∧ shouldRetryEff ron (es i) = true) →
    retryGo att retries ron a fuel = (.error (es retries), retries + 1) := by
  induction fuel with
  | zero =>
    intro a ha h
    obtain rfl : a = retries := by omega
    rw [retryGo_stop att a ron 0 a (es a) (h a le_rfl le_rfl).1
      (Or.inl le_rfl)]
  | succ fuel ih =>
    intro a ha h
    have hlt : ¬ retries ≤ a := by omega
    rw [retryGo_step att retries ron fuel a (es a)
      (h a le_rfl (by omega)).1 hlt (h a le_rfl (by omega)).2]
    exact ih (a + 1) (by omega) (fun i h1 h2 => h i (by omega) h2)

theorem retry_iff_eligible {ρ : Type} (att : Nat → Except SushiError ρ)
    (retries : Nat) (ron : Option (SushiError → Bool)) (e : SushiError)
    (hatt : att 0 = .error e) (hr : 1 ≤ retries) :
    2 ≤ (retryFetch att retries ron).2 ↔ shouldRetryEff ron e = true := by
  constructor
  · intro h2
    by_contra hc
    have heff : shouldRetryEff ron e = false := by
      cases heq : shouldRetryEff ron e
      · rfl
      · exact absurd heq hc
    rw [show retryFetch att retries ron = (.error e, 1) from
      retryGo_stop att retries ron retries 0 e hatt (Or.inr heff)] at h2
    omega
  · intro heff
    obtain ⟨r, rfl⟩ : ∃ r, retries = r + 1 := ⟨retries - 1, by omega⟩
    unfold retryFetch
    rw [retryGo_step att (r + 1) ron r 0 e hatt (by omega) heff]
    exact retryGo_count_ge att (r + 1) ron r 1

/-- C8: the retry loop performs at most `retries + 1` attempts; with no
custom predicate a first-attempt failure leads to a second attempt iff it
is network-level or a server error (a 4xx status error is never retried and
is propagated after one attempt); a supplied `retryOn` predicate fully
overrides the default; and when every attempt fails eligibly the last error
is propagated after exactly `retries + 1` attempts. -/
theorem retry_policy :
    (∀ (att : Nat → Except SushiError Nat) (retries : Nat)
      (ron : Option (SushiError → Bool)),
      (retryFetch att retries ron).2 ≤ retries + 1) ∧
    (∀ (att : Nat → Except SushiError Nat) (retries : Nat) (e : SushiError),
      att 0 = .error e → 1 ≤ retries →
      (2 ≤ (retryFetch att retries none).2 ↔ defaultShouldRetry e = true)) ∧
    (∀ s : Nat, 400 ≤ s → s < 500 →
      defaultShouldRetry (httpError s) = false) ∧
    (defaultShouldRetry networkError = true ∧
      (∀ e : SushiError, e.status = none → defaultShouldRetry e = true) ∧
      (∀ s : Nat, 500 ≤ s → defaultShouldRetry (httpError s) = true)) ∧
    (∀ (att : Nat → Except SushiError Nat) (retries : Nat)
      (p : SushiError → Bool) (e : SushiError),
      att 0 = .error e → 1 ≤ retries →
      (2 ≤ (retryFetch att retries (some p)).2 ↔ p e = true)) ∧
    (∀ (att : Nat → Except SushiError Nat) (retries : Nat)
      (ron : Option (SushiError → Bool)) (e : SushiError),
      att 0 = .error e → shouldRetryEff ron e = false →
      retryFetch att retries ron = (.error e, 1)) ∧
    (∀ (att : Nat → Except SushiError Nat) (retries : Nat)
      (ron : Option (SushiError → Bool)) (es : Nat → SushiError),
      (∀ i, i ≤ retries →
        att i = .error (es i) ∧ shouldRetryEff ron (es i) = true) →
      retryFetch att retries ron = (.error (es retries), retries + 1)) := by
  refine ⟨?_, ?_, ?_, ⟨by decide, ?_, ?_⟩, ?_, ?_, ?_⟩
  · intro att retries ron
    exact retryGo_count_le att retries ron retries 0 (Nat.zero_le retries)
  · intro att retries e hatt hr
    exact retry_iff_eligible att retries none e hatt hr
  · intro s h1 h2
    simp [defaultShouldRetry, isNetworkError, isServerError, httpError]
    omega
  · intro e hs
    simp [defaultShouldRetry, isNetworkError, hs]
  · intro s hs
    simp only [defaultShouldRetry, isServerError, httpError, Bool.or_eq_true]
    exact Or.inr (by simpa using hs)
  · intro att retries p e hatt hr
    exact retry_iff_eligible att retries (some p) e hatt hr
  · intro att retries ron e hatt heff
    exact retryGo_stop att retries ron retries 0 e hatt (Or.inr heff)
  · intro att retries ron es h
    exact retryGo_exhaust att retries ron es retries 0 (by omega)
      (fun i h1 h2 => h i h2)

theorem retry_policy_witness :
    retryFetch (fun _ => (.error (httpError 404) : Except SushiError Nat))
        3 none = (.error (httpError 404), 1) ∧
    2 ≤ (retryFetch (fun _ => (.error networkError : Except SushiError Nat))
        3 none).2 ∧
    retryFetch (fun _ => (.error networkError : Except SushiError Nat))
        2 none = (.error networkError, 3) ∧
    (retryFetch (fun _ => (.ok 5 : Except SushiError Nat)) 3 none).2 ≤ 4 :=
  ⟨retry_policy.2.2.2.2.2.1 (fun _ => .error (httpError 404)) 3 none
      (httpError 404) rfl (by decide),
    (retry_policy.2.1 (fun _ => .error networkError) 3 networkError rfl
      (by omega)).mpr (by decide),
    retry_policy.2.2.2.2.2.2 (fun _ => .error networkError) 2 none
      (fun _ => networkError)
      (fun i _ => ⟨rfl, by show shouldRetryEff none networkError = true; decide⟩),
    retry_policy.1 (fun _ => .ok 5) 3 none⟩

/-! ### C2 -/

/-- A cache holding one expired entry: `v1 = 7` stored with `expiry = 100`,
queried at `now = 200`. -/
def staleC : SushiCache Nat :=
  ⟨[("k", ⟨7, 100, 0, []⟩)], [], [], none, 5000, false, 0, 0, [], []⟩

/-- C2 fails on the code: with an expired entry `v1 = 7` at key `k`, a
request whose transport fails propagates the failure instead of returning
`v1`.  The cache check (`get`) lazily deletes the expired entry, and `peek`
never returns expired data either, so the stale-if-error branch cannot see
it; the entry is even destroyed as a side effect. -/
theorem stale_if_error_broken_eval :
    (fetchFlow staleC "k" 200 true false (.error networkError) 5000 []).2 =
      .failure networkError ∧
    alGet (fetchFlow staleC "k" 200 true false (.error networkError)
      5000 []).1.store "k" = none ∧
    staleC.peek "k" 200 =
      ({ staleC with store := [], evictLog := [⟨"k", 7⟩] },
        some Option.none) := by decide

/-! ### C4 -/

/-- A cache with one live entry at `k` and one subscribed listener. -/
def mutC : SushiCache Nat :=
  ⟨[("k", ⟨5, 1000, 0, []⟩)], [], [("k", [⟨0, false⟩])], none, 5000, false,
    0, 0, [], []⟩

/-- C4 fails on the code: `mutate` on a key with an existing entry triggers
two notification cycles — the internal `delete` inside `set` notifies
`null` first, then `set` notifies the new value — so the single subscribed
listener is invoked twice, not exactly once. -/
theorem mutate_single_notification_counterexample :
    (mutC.mutate "k" (fun _ => 7) 0 500).1.log =
      [⟨0, "k", Option.none⟩, ⟨0, "k", some 7⟩] ∧
    (mutC.mutate "k" (fun _ => 7) 0 500).1.log ≠ [⟨0, "k", some 7⟩] := by
  decide

/-- C4 amended: on a key holding an unexpired entry, `mutate` triggers two
notification cycles — every subscribed listener is invoked first with
`null` (from the internal delete in `set`) and then with the post-mutation
value; on an absent key it triggers exactly one cycle with the
post-mutation value. -/
theorem mutate_notification_cycles {α : Type} (c : SushiCache α) (k : Key)
    (f : Option α → α) (now ttl : Nat) (hms : c.maxSize = none)
    (hnt : noThrow c) :
    (∀ e, alGet c.store k = some e → ¬ e.expiry < now →
      (c.mutate k f now ttl).1.log = c.log ++
        (((alGet c.listeners k).getD []).map
          fun l => ⟨l.id, k, Option.none⟩) ++
        (((alGet c.listeners k).getD []).map
          fun l => ⟨l.id, k, some (f (some e.data))⟩) ∧
      (c.mutate k f now ttl).2 = some (f (some e.data))) ∧
    (alGet c.store k = none →
      (c.mutate k f now ttl).1.log = c.log ++
        (((alGet c.listeners k).getD []).map
          fun l => ⟨l.id, k, some (f Option.none)⟩) ∧
      (c.mutate k f now ttl).2 = some (f Option.none)) := by
  constructor
  · intro e hg hexp
    unfold SushiCache.mutate
    rw [get_hit c k now e hg hexp]
    dsimp only
    set e' : CacheEntry α :=
      { e with
        lastAccess := now
        expiry := if c.sliding then now + c.defaultTTL else e.expiry }
      with he'
    set c1 : SushiCache α :=
      { c with store := alDelete c.store k ++ [(k, e')], hits := c.hits + 1 }
      with hc1
    have htag : alGet c1.store k = some e' := by
      rw [hc1]
      show alGet (alDelete c.store k ++ [(k, e')]) k = some e'
      rw [alGet_append_right _ _ k (alGet_alDelete_self c.store k)]
      simp [alGet]
    rw [htag]
    dsimp only
    rw [set_present_noBound c1 k (f (some e.data)) now ttl e'.tags e'
      (by rw [hc1]; exact hms) (noThrow_of_listeners_eq (by rw [hc1]) hnt)
      htag]
    exact ⟨rfl, rfl⟩
  · intro hg
    unfold SushiCache.mutate
    rw [get_miss_absent c k now hg]
    dsimp only
    set c1 : SushiCache α := { c with misses := c.misses + 1 } with hc1
    rw [show alGet c1.store k = (Option.none : Option (CacheEntry α)) from by
      rw [hc1]; exact hg]
    dsimp only
    rw [set_absent_noBound c1 k (f Option.none) now ttl []
      (by rw [hc1]; exact hms) (noThrow_of_listeners_eq (by rw [hc1]) hnt)
      (by rw [hc1]; exact hg)]
    exact ⟨rfl, rfl⟩

theorem mutate_notification_cycles_witness :
    (alGet mutC.store "k" = some ⟨5, 1000, 0, []⟩ ∧
      (mutC.mutate "k" (fun _ => 7) 0 500).1.log =
        [⟨0, "k", Option.none⟩, ⟨0, "k", some 7⟩]) ∧
    (alGet mutC.store "z" = none ∧
      (mutC.mutate "z" (fun _ => 9) 0 500).1.log = []) :=
  ⟨⟨by decide,
    ((mutate_notification_cycles mutC "k" (fun _ => 7) 0 500 rfl
      (by decide)).1 ⟨5, 1000, 0, []⟩ (by decide) (by decide)).1⟩,
    ⟨by decide,
    ((mutate_notification_cycles mutC "z" (fun _ => 9) 0 500 rfl
      (by decide)).2 (by decide)).1⟩⟩

/-! ### C5 -/

/-- A cache with one entry at `k` and two listeners: the first throws when
invoked, the second does not. -/
def thrC : SushiCache Nat :=
  ⟨[("k", ⟨5, 1000, 0, []⟩)], [], [("k", [⟨0, true⟩, ⟨1, false⟩])], none,
    5000, false, 0, 0, [], []⟩

/-- C5 fails on the code: when the first listener throws during the
notification of `delete(k)`, the remaining listener (id 1) is never
invoked — `forEach` has no try/catch, so the exception aborts delivery and
propagates to the caller. -/
theorem listener_throw_counterexample :
    (thrC.delete "k").1.log = [⟨0, "k", Option.none⟩] ∧
    ((thrC.delete "k").1.log.filter fun n => n.listener == 1) = [] ∧
    (thrC.delete "k").2 = none := by decide

theorem deliver_throw {α : Type} (pre post : List Listener) (tid : Nat)
    (k : Key) (v : Option α)
    (hpre : ∀ l ∈ pre, l.throws = false) :
    deliver (pre ++ ⟨tid, true⟩ :: post) k v =
      ((pre.map fun l => (⟨l.id, k, v⟩ : Notif α)) ++ [⟨tid, k, v⟩],
        true) := by
  induction pre with
  | nil => simp [deliver]
  | cons l pre ih =>
    have hl : l.throws = false := hpre l (List.mem_cons_self _ _)
    have hrest : ∀ l' ∈ pre, l'.throws = false :=
      fun l' hm => hpre l' (List.mem_cons_of_mem _ hm)
    simp [deliver, hl, ih hrest]

theorem delete_present_throw {α : Type} (c : SushiCache α) (k : Key)
    (e : CacheEntry α) (pre post : List Listener) (tid : Nat)
    (hg : alGet c.store k = some e)
    (hl : alGet c.listeners k = some (pre ++ ⟨tid, true⟩ :: post))
    (hpre : ∀ l ∈ pre, l.throws = false) :
    c.delete k =
      ({ c with
          tagMap := removeKeyFromTags c.tagMap e.tags k
          evictLog := c.evictLog ++ [⟨k, e.data⟩]
          store := alDelete c.store k
          log := c.log ++
            ((pre.map fun l => ⟨l.id, k, Option.none⟩) ++
              [⟨tid, k, Option.none⟩]) },
        none) := by
  unfold SushiCache.delete
  rw [hg]
  dsimp only
  unfold SushiCache.notify
  dsimp only
  rw [hl]
  rw [Option.getD_some]
  rw [deliver_throw pre post tid k Option.none hpre]
  rfl

/-- C5 amended: a listener that throws during the notification of
`delete(k)` stops delivery — listeners subscribed after it are not invoked
and the exception propagates to the caller — while the store, the tag
index, and the hit/miss statistics still end exactly as in the
non-throwing run, because notification happens after all state mutation;
for `set` on a key with an existing entry, the exception from the internal
delete's `null` notification additionally aborts the operation before the
new value is written, leaving the key absent. -/
theorem listener_throw_aborts {α : Type} (c : SushiCache α) (k : Key)
    (e : CacheEntry α) (pre post : List Listener) (tid : Nat)
    (hg : alGet c.store k = some e)
    (hl : alGet c.listeners k = some (pre ++ ⟨tid, true⟩ :: post))
    (hpre : ∀ l ∈ pre, l.throws = false) :
    ((c.delete k).2 = none ∧
      (c.delete k).1.store = alDelete c.store k ∧
      (c.delete k).1.tagMap = removeKeyFromTags c.tagMap e.tags k ∧
      (c.delete k).1.hits = c.hits ∧ (c.delete k).1.misses = c.misses ∧
      (c.delete k).1.log = c.log ++
        ((pre.map fun l => ⟨l.id, k, Option.none⟩) ++
          [⟨tid, k, Option.none⟩])) ∧
    (∀ (d : α) (now ttl : Nat) (tags : List String),
      (c.set k d now ttl tags).2 = none ∧
      alGet (c.set k d now ttl tags).1.store k = none ∧
      (c.set k d now ttl tags).1.log = c.log ++
        ((pre.map fun l => ⟨l.id, k, Option.none⟩) ++
          [⟨tid, k, Option.none⟩])) := by
  have hdel := delete_present_throw c k e pre post tid hg hl hpre
  constructor
  · rw [hdel]
    exact ⟨rfl, rfl, rfl, rfl, rfl, rfl⟩
  · intro d now ttl tags
    unfold SushiCache.set
    rw [hg]
    dsimp only
    rw [hdel]
    dsimp only
    exact ⟨rfl, alGet_alDelete_self c.store k, rfl⟩

theorem listener_throw_aborts_witness :
    (alGet thrC.store "k" = some ⟨5, 1000, 0, []⟩ ∧
      alGet thrC.listeners "k" = some [⟨0, true⟩, ⟨1, false⟩]) ∧
    (thrC.delete "k").2 = none ∧
    (thrC.delete "k").1.log = [⟨0, "k", Option.none⟩] ∧
    (thrC.set "k" 9 0 500 []).2 = none ∧
    alGet (thrC.set "k" 9 0 500 []).1.store "k" = none :=
  ⟨⟨by decide, by decide⟩,
    (listener_throw_aborts thrC "k" ⟨5, 1000, 0, []⟩ [] [⟨1, false⟩] 0
      (by decide) (by decide) (fun l h => absurd h (List.not_mem_nil l))).1.1,
    (listener_throw_aborts thrC "k" ⟨5, 1000, 0, []⟩ [] [⟨1, false⟩] 0
      (by decide) (by decide)
      (fun l h => absurd h (List.not_mem_nil l))).1.2.2.2.2.2,
    ((listener_throw_aborts thrC "k" ⟨5, 1000, 0, []⟩ [] [⟨1, false⟩] 0
      (by decide) (by decide)
      (fun l h => absurd h (List.not_mem_nil l))).2 9 0 500 []).1,
    ((listener_throw_aborts thrC "k" ⟨5, 1000, 0, []⟩ [] [⟨1, false⟩] 0
      (by decide) (by decide)
      (fun l h => absurd h (List.not_mem_nil l))).2 9 0 500 []).2.1⟩

/-! ### C6 -/

theorem evictGo_stop (c : SushiCache α) (fuel : Nat)
    (h : sizeExceeds c.store.length c.maxSize = false) :
    evictGo c fuel = (c, some ()) := by
  cases fuel with
  | zero => rfl
  | succ fuel =>
    rw [evictGo, if_neg (by simp [h])]

theorem evictGo_bound (m : Nat) (fuel : Nat) :
    ∀ (c : SushiCache α), c.maxSize = some m →
    c.store.length ≤ fuel + m → (evictGo c fuel).2 = some () →
    (evictGo c fuel).1.store.length ≤ m := by
  induction fuel with
  | zero =>
    intro c hm hlen _
    simpa using hlen
  | succ fuel ih =>
    intro c hm hlen hok
    rw [evictGo] at hok ⊢
    by_cases hex : sizeExceeds c.store.length c.maxSize = true
    · rw [if_pos hex] at hok ⊢
      rcases hs : c.store with _ | ⟨q, qs⟩
      · rw [hs, hm] at hex
        simp [sizeExceeds] at hex
      · rw [hs] at hok
        dsimp only at hok ⊢
        split at hok
        · rename_i c' u hd
          have hst : c'.store = alDelete c.store q.1 := by
            have := delete_store c q.1
            rw [hd] at this
            exact this
          have hm' : c'.maxSize = some m := by
            have := (delete_frame c q.1).1.2.1
            rw [hd] at this
            rw [this, hm]
          have hlt : c'.store.length < c.store.length := by
            rw [hst, hs]
            exact alDelete_length_lt q qs
          exact ih c' hm' (by omega) hok
        · rename_i c' hd
          simp at hok
    · rw [if_neg hex] at hok ⊢
      have : ¬ m < c.store.length := by
        rw [hm] at hex
        simpa [sizeExceeds] using hex
      simpa using this

theorem setCore_cases (c1 : SushiCache α) (k : Key) (d : α) (now ttl : Nat)
    (tags : List String) :
    (setCore c1 k d now ttl tags).1.store =
      (SushiCache.evictIfNeeded
        { c1 with
          store := alSet c1.store k ⟨d, now + ttl, now, tags⟩
          tagMap := addKeyToTags c1.tagMap tags k }).1.store ∧
    ((setCore c1 k d now ttl tags).2 = some () →
      (SushiCache.evictIfNeeded
        { c1 with
          store := alSet c1.store k ⟨d, now + ttl, now, tags⟩
          tagMap := addKeyToTags c1.tagMap tags k }).2 = some ()) := by
  unfold setCore
  dsimp only
  split
  · rename_i c3 he
    rw [he]
    exact ⟨rfl, fun h => by simp at h⟩
  · rename_i c3 u3 he
    rw [he]
    exact ⟨rfl, fun _ => rfl⟩

theorem set_store_bound (c : SushiCache α) (k : Key) (d : α)
    (now ttl : Nat) (tags : List String) (m : Nat)
    (hm : c.maxSize = some m) (h : (c.set k d now ttl tags).2 = some ()) :
    (c.set k d now ttl tags).1.store.length ≤ m := by
  unfold SushiCache.set at h ⊢
  split at h
  · rw [(setCore_cases c k d now ttl tags).1]
    exact evictGo_bound m _ _ (by simpa using hm) (Nat.le_add_right _ _)
      ((setCore_cases c k d now ttl tags).2 h)
  · split at h
    · simp at h
    · rename_i e hg c1 u hd
      have hm1 : c1.maxSize = some m := by
        have := (delete_frame c k).1.2.1
        rw [hd] at this
        rw [this, hm]
      rw [(setCore_cases c1 k d now ttl tags).1]
      exact evictGo_bound m _ _ (by simpa using hm1) (Nat.le_add_right _ _)
        ((setCore_cases c1 k d now ttl tags).2 h)

/-- C6: with `maxSize = m` and a full store of `m` distinct keys, inserting
a fresh key evicts exactly the oldest (head) entry — one eviction-callback
record, the oldest key gone, every other original key untouched, the new
key present — and the store ends back at `m` entries; moreover every `set`
that completes normally leaves at most `maxSize` entries. -/
theorem lru_eviction_bound {α : Type} :
    (∀ (c : SushiCache α) (k : Key) (v : α) (now ttl m : Nat)
      (q : Key × CacheEntry α) (rest : List (Key × CacheEntry α)),
      c.maxSize = some m → 1 ≤ m → c.store.length = m →
      (c.store.map Prod.fst).Nodup → alGet c.store k = none → noThrow c →
      c.store = q :: rest →
      (c.set k v now ttl []).2 = some () ∧
      (c.set k v now ttl []).1.store.length = m ∧
      (c.set k v now ttl []).1.evictLog = c.evictLog ++ [⟨q.1, q.2.data⟩] ∧
      alGet (c.set k v now ttl []).1.store q.1 = none ∧
      alGet (c.set k v now ttl []).1.store k =
        some ⟨v, now + ttl, now, []⟩ ∧
      (∀ k', k' ≠ q.1 → k' ≠ k →
        alGet (c.set k v now ttl []).1.store k' = alGet c.store k')) ∧
    (∀ (c : SushiCache α) (k : Key) (v : α) (now ttl m : Nat)
      (tags : List String), c.maxSize = some m →
      (c.set k v now ttl tags).2 = some () →
      (c.set k v now ttl tags).1.store.length ≤ m) := by
  constructor
  · intro c k v now ttl m q rest hm hm1 hlen hnd hk hnt hstore
    have hknotin : k ∉ c.store.map Prod.fst := (alGet_eq_none_iff _ _).mp hk
    have hqrest : q.1 ∉ rest.map Prod.fst := by
      rw [hstore] at hnd
      simp only [List.map_cons, List.nodup_cons] at hnd
      exact hnd.1
    have hqk : q.1 ≠ k := by
      intro hqe
      apply hknotin
      rw [hstore, ← hqe]
      simp
    -- the state after inserting the fresh entry, before eviction
    set e0 : CacheEntry α := ⟨v, now + ttl, now, []⟩ with he0
    set c2 : SushiCache α :=
      { c with
        store := alSet c.store k e0
        tagMap := addKeyToTags c.tagMap [] k } with hc2
    have hc2store : c2.store = (q :: rest) ++ [(k, e0)] := by
      rw [hc2]
      show alSet c.store k e0 = _
      rw [alSet_of_not_mem c.store k e0 hknotin, hstore]
    have hc2cons : c2.store = q :: (rest ++ [(k, e0)]) := by
      rw [hc2store]
      rfl
    have hrestlen : rest.length + 1 = m := by
      rw [hstore] at hlen
      simpa using hlen
    have hc2len : c2.store.length = m + 1 := by
      rw [hc2cons]
      simp
      omega
    have hnt2 : noThrow c2 := noThrow_of_listeners_eq (by rw [hc2]) hnt
    have hqget : alGet c2.store q.1 = some q.2 := by
      rw [hc2cons]
      obtain ⟨a, b⟩ := q
      simp [alGet]
    have hdel := delete_present_noThrow c2 q.1 q.2 hnt2 hqget
    have hdelstore : alDelete c2.store q.1 = rest ++ [(k, e0)] := by
      rw [hc2cons]
      refine alDelete_cons_self q (rest ++ [(k, e0)]) ?_
      simp only [List.map_append, List.mem_append]
      rintro (h1 | h1)
      · exact hqrest h1
      · simp at h1
        exact hqk h1
    set c3 : SushiCache α :=
      { c2 with
        tagMap := removeKeyFromTags c2.tagMap q.2.tags q.1
        evictLog := c2.evictLog ++ [⟨q.1, q.2.data⟩]
        store := alDelete c2.store q.1
        log := c2.log ++
          ((alGet c2.listeners q.1).getD []).map
            fun l => ⟨l.id, q.1, Option.none⟩ } with hc3
    have hc3store : c3.store = rest ++ [(k, e0)] := by
      rw [hc3]
      exact hdelstore
    have hc3len : c3.store.length = m := by
      rw [hc3store]
      simp
      omega
    have hstop : sizeExceeds c3.store.length c3.maxSize = false := by
      rw [hc3len, show c3.maxSize = some m from by rw [hc3, hc2]; exact hm]
      simp [sizeExceeds]
    have hev : c2.evictIfNeeded = (c3, some ()) := by
      rw [SushiCache.evictIfNeeded, hc2len, evictGo]
      rw [if_pos (by rw [hc2len, show c2.maxSize = some m from by
        rw [hc2]; exact hm]; simp [sizeExceeds])]
      rw [hc2cons]
      dsimp only
      rw [hdel]
      exact evictGo_stop c3 m hstop
    have hset : c.set k v now ttl [] =
        ({ c3 with log := c3.log ++
            ((alGet c3.listeners k).getD []).map fun l => ⟨l.id, k, some v⟩ },
          some ()) := by
      unfold SushiCache.set
      rw [hk]
      unfold setCore
      dsimp only
      rw [show SushiCache.evictIfNeeded
          { c with
            store := alSet c.store k ⟨v, now + ttl, now, []⟩
            tagMap := addKeyToTags c.tagMap [] k } = (c3, some ()) from hev]
      dsimp only
      unfold SushiCache.notify
      dsimp only
      rw [deliver_noThrow ((alGet c3.listeners k).getD []) k (some v)
        (noThrow_key c3 k (noThrow_of_listeners_eq (by rw [hc3, hc2]) hnt))]
      rfl
    rw [hset]
    refine ⟨rfl, ?_, ?_, ?_, ?_, ?_⟩
    · exact hc3len
    · rfl
    · show alGet c3.store q.1 = none
      rw [hc3store]
      rw [alGet_eq_none_iff]
      simp only [List.map_append, List.mem_append]
      rintro (h1 | h1)
      · exact hqrest h1
      · simp at h1
        exact hqk h1
    · show alGet c3.store k = some ⟨v, now + ttl, now, []⟩
      rw [hc3store]
      have hkrest : alGet rest k = none := by
        rw [alGet_eq_none_iff]
        intro hmem
        apply hknotin
        rw [hstore]
        simp [hmem]
      rw [alGet_append_right rest _ k hkrest]
      simp [alGet, he0]
    · intro k' hq hkk
      show alGet c3.store k' = alGet c.store k'
      rw [hc3store, alGet_append_single_ne rest k k' e0 hkk, hstore]
      obtain ⟨a, b⟩ := q
      simp only [alGet]
      rw [if_neg (by simpa using Ne.symm hq)]
  · intro c k v now ttl m tags hm h
    exact set_store_bound c k v now ttl tags m hm h

/-- A full bounded cache: `maxSize = 2`, entries `a` (oldest) and `b`. -/
def lruC : SushiCache Nat :=
  ⟨[("a", ⟨1, 1000, 0, []⟩), ("b", ⟨2, 1000, 0, []⟩)], [], [], some 2,
    5000, false, 0, 0, [], []⟩

theorem lru_eviction_bound_witness :
    (lruC.maxSize = some 2 ∧ lruC.store.length = 2 ∧
      alGet lruC.store "c" = none) ∧
    (lruC.set "c" 3 0 500 []).2 = some () ∧
    (lruC.set "c" 3 0 500 []).1.store.length = 2 ∧
    (lruC.set "c" 3 0 500 []).1.evictLog = [⟨"a", 1⟩] ∧
    alGet (lruC.set "c" 3 0 500 []).1.store "a" = none ∧
    alGet (lruC.set "c" 3 0 500 []).1.store "c" = some ⟨3, 500, 0, []⟩ ∧
    alGet (lruC.set "c" 3 0 500 []).1.store "b" = alGet lruC.store "b" :=
  ⟨⟨rfl, rfl, by decide⟩,
    ((@lru_eviction_bound Nat).1 lruC "c" 3 0 500 2 ("a", ⟨1, 1000, 0, []⟩)
      [("b", ⟨2, 1000, 0, []⟩)] rfl (by omega) rfl (by decide) (by decide)
      (by decide) rfl).1,
    ((@lru_eviction_bound Nat).1 lruC "c" 3 0 500 2 ("a", ⟨1, 1000, 0, []⟩)
      [("b", ⟨2, 1000, 0, []⟩)] rfl (by omega) rfl (by decide) (by decide)
      (by decide) rfl).2.1,
    ((@lru_eviction_bound Nat).1 lruC "c" 3 0 500 2 ("a", ⟨1, 1000, 0, []⟩)
      [("b", ⟨2, 1000, 0, []⟩)] rfl (by omega) rfl (by decide) (by decide)
      (by decide) rfl).2.2.1,
    ((@lru_eviction_bound Nat).1 lruC "c" 3 0 500 2 ("a", ⟨1, 1000, 0, []⟩)
      [("b", ⟨2, 1000, 0, []⟩)] rfl (by omega) rfl (by decide) (by decide)
      (by decide) rfl).2.2.2.1,
    ((@lru_eviction_bound Nat).1 lruC "c" 3 0 500 2 ("a", ⟨1, 1000, 0, []⟩)
      [("b", ⟨2, 1000, 0, []⟩)] rfl (by omega) rfl (by decide) (by decide)
      (by decide) rfl).2.2.2.2.1,
    ((@lru_eviction_bound Nat).1 lruC "c" 3 0 500 2 ("a", ⟨1, 1000, 0, []⟩)
      [("b", ⟨2, 1000, 0, []⟩)] rfl (by omega) rfl (by decide) (by decide)
      (by decide) rfl).2.2.2.2.2 "b" (by decide) (by decide)⟩

/-! ### C7 -/

theorem delete_complete (c : SushiCache α) (k : Key) (hnt : noThrow c) :
    (c.delete k).2 = some () := by
  match hg : alGet c.store k with
  | none => rw [delete_absent c k hg]
  | some e => rw [delete_present_noThrow c k e hnt hg]

theorem deleteKeys_complete (ks : List Key) (c : SushiCache α)
    (hnt : noThrow c) :
    (deleteKeys c ks).2 = some () ∧ noThrow (deleteKeys c ks).1 := by
  induction ks generalizing c with
  | nil => exact ⟨rfl, hnt⟩
  | cons k ks ih =>
    rw [deleteKeys]
    have hnt' : noThrow (c.delete k).1 :=
      noThrow_of_listeners_eq (delete_frame c k).1.1 hnt
    split
    · rename_i c' u hd
      refine ih c' ?_
      rw [hd] at hnt'
      exact hnt'
    · rename_i c' hd
      have := delete_complete c k hnt
      rw [hd] at this
      simp at this

/-- C7: the tag-index invariant — a key appears under tag `T` in the tag
map iff its stored entry's `tags` contains `T` — holds in every well-formed
state and is preserved by `set`, `delete`, `mutate`, `invalidateTag` and
`clear` (including the internal cleanup paths those operations share); and
`invalidateTag(T)`, when its listeners do not throw, deletes exactly the
keys indexed under `T` (every other key's binding is untouched) and then
drops `T` from the index. -/
theorem tag_index_invariant_preserved {α : Type} (c : SushiCache α)
    (h : WF c) :
    (∀ tag k, tagHasKey c tag k ↔ entryHasTag c tag k) ∧
    (∀ (k : Key) (d : α) (now ttl : Nat) (tags : List String),
      WF (c.set k d now ttl tags).1) ∧
    (∀ k : Key, WF (c.delete k).1) ∧
    (∀ (k : Key) (f : Option α → α) (now ttl : Nat),
      WF (c.mutate k f now ttl).1) ∧
    (∀ tag : String, WF (c.invalidateTag tag).1) ∧
    WF c.clear.1 ∧
    (∀ (tag : String) (ks : List Key), noThrow c →
      alGet c.tagMap tag = some ks →
      (c.invalidateTag tag).2 = some () ∧
      (∀ k, k ∈ ks → alGet (c.invalidateTag tag).1.store k = none) ∧
      (∀ k, k ∉ ks →
        alGet (c.invalidateTag tag).1.store k = alGet c.store k) ∧
      alGet (c.invalidateTag tag).1.tagMap tag = none) := by
  refine ⟨h.2.2, fun k d now ttl tags => WF_set c k d now ttl tags h,
    fun k => WF_delete c k h, fun k f now ttl => WF_mutate c k f now ttl h,
    fun tag => WF_invalidateTag c tag h, WF_clear c, ?_⟩
  intro tag ks hnt hg
  have hcomp := (deleteKeys_complete ks c hnt).1
  rcases hdk : deleteKeys c ks with ⟨c', r⟩
  rw [hdk] at hcomp
  obtain rfl : r = some () := hcomp
  have heq : c.invalidateTag tag =
      ({ c' with tagMap := alDelete c'.tagMap tag }, some ()) := by
    unfold SushiCache.invalidateTag
    rw [hg]
    dsimp only
    rw [hdk]
  rw [heq]
  refine ⟨rfl, ?_, ?_, ?_⟩
  · intro k hk
    show alGet c'.store k = none
    rw [deleteKeys_store ks c c' hdk k, if_pos hk]
  · intro k hk
    show alGet c'.store k = alGet c.store k
    rw [deleteKeys_store ks c c' hdk k, if_neg hk]
  · show alGet (alDelete c'.tagMap tag) tag = none
    exact alGet_alDelete_self _ _

theorem WF_cacheA : WF cacheA := by
  refine ⟨by decide, by decide, fun tag k => ?_⟩
  unfold tagHasKey entryHasTag
  show k ∈ (alGet cacheA.tagMap tag).getD [] ↔
    ∃ e, alGet cacheA.store k = some e ∧ tag ∈ e.tags
  by_cases ht : tag = "t" <;> by_cases hk : k = "x"
  · subst ht
    subst hk
    simp [cacheA, alGet]
  · subst ht
    simp [cacheA, alGet, hk, Ne.symm hk]
  · subst hk
    simp [cacheA, alGet, ht, Ne.symm ht]
  · simp [cacheA, alGet, ht, hk, Ne.symm ht, Ne.symm hk]

theorem tag_index_invariant_preserved_witness :
    (WF cacheA ∧ noThrow cacheA ∧ alGet cacheA.tagMap "t" = some ["x"]) ∧
    WF (cacheA.delete "x").1 ∧
    WF (cacheA.set "y" 2 0 100 ["t"]).1 ∧
    (cacheA.invalidateTag "t").2 = some () ∧
    alGet (cacheA.invalidateTag "t").1.store "x" = none ∧
    alGet (cacheA.invalidateTag "t").1.tagMap "t" = none :=
  ⟨⟨WF_cacheA, by decide, by decide⟩,
    (tag_index_invariant_preserved cacheA WF_cacheA).2.2.1 "x",
    (tag_index_invariant_preserved cacheA WF_cacheA).2.1 "y" 2 0 100 ["t"],
    ((tag_index_invariant_preserved cacheA WF_cacheA).2.2.2.2.2.2 "t" ["x"]
      (by decide) (by decide)).1,
    ((tag_index_invariant_preserved cacheA WF_cacheA).2.2.2.2.2.2 "t" ["x"]
      (by decide) (by decide)).2.1 "x" (by decide),
    ((tag_index_invariant_preserved cacheA WF_cacheA).2.2.2.2.2.2 "t" ["x"]
      (by decide) (by decide)).2.2.2⟩

/-! ### C9 -/

theorem charsLe_cons_iff (x y : Char) (as bs : List Char) :
    charsLe (x :: as) (y :: bs) = true ↔
      x < y ∨ (x = y ∧ charsLe as bs = true) := by
  show (if x < y then true else if y < x then false else charsLe as bs)
      = true ↔ _
  by_cases h1 : x < y
  · simp [h1]
  · rw [if_neg h1]
    by_cases h2 : y < x
    · rw [if_pos h2]
      constructor
      · intro h
        simp at h
      · rintro (h | ⟨rfl, h⟩)
        · exact absurd h h1
        · exact absurd h2 (lt_irrefl _)
    · rw [if_neg h2]
      have hxy : x = y := le_antisymm (not_lt.mp h2) (not_lt.mp h1)
      simp [h1, hxy]

theorem charsLe_total : ∀ a b : List Char,
    charsLe a b = true ∨ charsLe b a = true := by
  intro a
  induction a with
  | nil => intro b; left; rfl
  | cons x as ih =>
    intro b
    cases b with
    | nil => right; rfl
    | cons y bs =>
      rcases lt_trichotomy x y with h | h | h
      · left
        rw [charsLe_cons_iff]
        exact Or.inl h
      · subst h
        rcases ih bs with h | h
        · left
          rw [charsLe_cons_iff]
          exact Or.inr ⟨rfl, h⟩
        · right
          rw [charsLe_cons_iff]
          exact Or.inr ⟨rfl, h⟩
      · right
        rw [charsLe_cons_iff]
        exact Or.inl h

theorem charsLe_antisymm : ∀ a b : List Char,
    charsLe a b = true → charsLe b a = true → a = b := by
  intro a
  induction a with
  | nil =>
    intro b _ h2
    cases b with
    | nil => rfl
    | cons y bs => simp [charsLe] at h2
  | cons x as ih =>
    intro b h1 h2
    cases b with
    | nil => simp [charsLe] at h1
    | cons y bs =>
      rw [charsLe_cons_iff] at h1 h2
      rcases h1 with h1 | ⟨rfl, h1⟩
      · rcases h2 with h2 | ⟨rfl, h2⟩
        · exact absurd h2 (asymm h1)
        · exact absurd h1 (lt_irrefl _)
      · rcases h2 with h2 | ⟨he, h2⟩
        · exact absurd h2 (lt_irrefl _)
        · rw [ih bs h1 h2]

theorem charsLe_trans : ∀ a b c : List Char, charsLe a b = true →
    charsLe b c = true → charsLe a c = true := by
  intro a
  induction a with
  | nil => intro b c _ _; rfl
  | cons x as ih =>
    intro b c h1 h2
    cases b with
    | nil => simp [charsLe] at h1
    | cons y bs =>
      cases c with
      | nil => simp [charsLe] at h2
      | cons z cs =>
        rw [charsLe_cons_iff] at h1 h2 ⊢
        rcases h1 with h1 | ⟨rfl, h1⟩
        · rcases h2 with h2 | ⟨rfl, h2⟩
          · exact Or.inl (lt_trans h1 h2)
          · exact Or.inl h1
        · rcases h2 with h2 | ⟨rfl, h2⟩
          · exact Or.inl h2
          · exact Or.inr ⟨rfl, ih bs cs h1 h2⟩

theorem string_data_inj (s t : String) (h : s.data = t.data) : s = t := by
  cases s
  cases t
  exact congrArg String.mk h

instance : IsTotal String strle :=
  ⟨fun a b => charsLe_total a.data b.data⟩

instance : IsTrans String strle :=
  ⟨fun a b c => charsLe_trans a.data b.data c.data⟩

instance : IsAntisymm String strle :=
  ⟨fun a b h1 h2 => string_data_inj a b (charsLe_antisymm a.data b.data h1 h2)⟩

theorem insertionSort_eq_of_perm (l1 l2 : List String)
    (hp : List.Perm l1 l2) :
    List.insertionSort strle l1 = List.insertionSort strle l2 :=
  List.eq_of_perm_of_sorted
    (((List.perm_insertionSort strle l1).trans hp).trans
      (List.perm_insertionSort strle l2).symm)
    (List.sorted_insertionSort strle l1) (List.sorted_insertionSort strle l2)

theorem alGet_perm {β : Type} (l1 l2 : List (Key × β))
    (hp : List.Perm l1 l2) (hnd : (l1.map Prod.fst).Nodup) (k : Key) :
    alGet l1 k = alGet l2 k := by
  have hnd2 : (l2.map Prod.fst).Nodup := ((hp.map Prod.fst).nodup_iff).mp hnd
  match hg : alGet l1 k with
  | none =>
    symm
    rw [alGet_eq_none_iff] at hg ⊢
    intro hc
    exact hg (((hp.map Prod.fst).mem_iff).mpr hc)
  | some v =>
    symm
    exact alGet_eq_some_of_mem_nodup l2 k v hnd2
      (hp.mem_iff.mp (alGet_mem_of_some l1 k v hg))

theorem combineFold_of_disjoint :
    ∀ (hs acc : List (String × String)), (hs.map Prod.fst).Nodup →
    (∀ n ∈ hs.map Prod.fst, alGet acc n = none) →
    hs.foldl chStep acc = acc ++ hs := by
  intro hs
  induction hs with
  | nil => intro acc _ _; simp
  | cons p hs ih =>
    intro acc hnd hdisj
    obtain ⟨n, v⟩ := p
    have hn : alGet acc n = none := hdisj n (by simp)
    have hstep : chStep acc (n, v) = acc ++ [(n, v)] := by
      unfold chStep
      rw [hn]
    simp only [List.map_cons, List.nodup_cons] at hnd
    rw [List.foldl_cons, hstep, ih (acc ++ [(n, v)]) hnd.2 ?_]
    · simp
    · intro m hm
      have hmn : m ≠ n := by
        intro he
        exact hnd.1 (he ▸ hm)
      rw [alGet_append_single_ne acc n m v hmn]
      exact hdisj m (by simp [hm])

theorem combineHeaders_nodup (hs : List (String × String))
    (h : (hs.map Prod.fst).Nodup) : combineHeaders hs = hs := by
  unfold combineHeaders
  rw [combineFold_of_disjoint hs [] h (fun n _ => rfl)]
  rfl

theorem normalizeHeaders_perm (hs1 hs2 : List (String × String))
    (hp : List.Perm (hs1.map lowerPair) (hs2.map lowerPair))
    (hnd : ((hs1.map lowerPair).map Prod.fst).Nodup) :
    normalizeHeaders hs1 = normalizeHeaders hs2 := by
  have hnd2 : ((hs2.map lowerPair).map Prod.fst).Nodup :=
    ((hp.map Prod.fst).nodup_iff).mp hnd
  unfold normalizeHeaders
  dsimp only
  rw [combineHeaders_nodup _ hnd, combineHeaders_nodup _ hnd2]
  rw [insertionSort_eq_of_perm _ _ (hp.map Prod.fst)]
  have hfun : (fun n => (n, (alGet (hs1.map lowerPair) n).getD "")) =
      (fun n => (n, (alGet (hs2.map lowerPair) n).getD "")) := by
    funext n
    rw [alGet_perm (hs1.map lowerPair) (hs2.map lowerPair) hp hnd n]
  rw [hfun]

theorem data_mk (l : List Char) : (String.mk l).data = l := rfl

theorem unesc_escList : ∀ xs : List Char, unesc (escList xs) = some xs := by
  intro xs
  induction xs with
  | nil => rfl
  | cons ch cs ih =>
    show unesc (escChar ch ++ escList cs) = some (ch :: cs)

    by_cases h1 : ch = '"'
    · subst h1
      simp [escChar, unesc, unescChar, ih]
    · by_cases h2 : ch = '\\'
      · subst h2
        simp [escChar, unesc, unescChar, ih]
      · by_cases h3 : ch = '\n'
        · subst h3
          simp [escChar, unesc, unescChar, ih]
        · by_cases h4 : ch = '\r'
          · subst h4
            simp [escChar, unesc, unescChar, ih]
          · by_cases h5 : ch = '\t'
            · subst h5
              simp [escChar, unesc, unescChar, ih]
            · have hstep : unesc (ch :: escList cs) =
                  (unesc (escList cs)).map (fun t => ch :: t) := by
                rw [unesc.eq_def]
                simp [h2]
              simp [escChar, h1, h2, h3, h4, h5, hstep, ih]

theorem escList_inj (xs ys : List Char) (h : escList xs = escList ys) :
    xs = ys := by
  have h1 := unesc_escList xs
  rw [h, unesc_escList ys] at h1
  exact (Option.some.inj h1).symm

/-- C9: cache-key derivation is order-independent — two option sets whose
lowercased header lists are permutations of each other (with no duplicate
names) produce the same key, whatever the insertion order — while changing
the body changes the key (same URL, method and headers), and a `FormData`
body is keyed exactly like the fixed sentinel string `[FormData]`. -/
theorem cache_key_stability :
    (∀ (url : String) (method : Option String) (body : BodyVal)
      (hs1 hs2 : List (String × String)),
      List.Perm (hs1.map lowerPair) (hs2.map lowerPair) →
      ((hs1.map lowerPair).map Prod.fst).Nodup →
      buildCacheKey url method body hs1 = buildCacheKey url method body hs2) ∧
    (∀ (url : String) (method : Option String)
      (hs : List (String × String)) (b1 b2 : String), b1 ≠ b2 →
      buildCacheKey url method (.str b1) hs ≠
        buildCacheKey url method (.str b2) hs) ∧
    (∀ (url : String) (method : Option String)
      (hs : List (String × String)),
      buildCacheKey url method .formData hs =
        buildCacheKey url method (.str "[FormData]") hs) := by
  refine ⟨?_, ?_, ?_⟩
  · intro url method body hs1 hs2 hp hnd
    unfold buildCacheKey stableStringifyReq headersJson
    rw [normalizeHeaders_perm hs1 hs2 hp hnd]
  · intro url method hs b1 b2 hne heq
    apply hne
    have hd := congrArg String.data heq
    simp only [buildCacheKey, stableStringifyReq, bodyToJson, jsonQuote,
      data_mk, String.data_append, List.append_assoc, List.cons_append,
      List.nil_append] at hd
    replace hd := List.append_cancel_left hd
    simp only [List.cons.injEq, true_and] at hd
    exact string_data_inj b1 b2 (escList_inj _ _ (List.append_cancel_right hd))
  · intro url method hs
    rfl

theorem cache_key_stability_witness :
    (List.Perm ([("B", "2"), ("a", "1")].map lowerPair)
        ([("a", "1"), ("B", "2")].map lowerPair) ∧
      (([("B", "2"), ("a", "1")].map lowerPair).map Prod.fst).Nodup ∧
      ("x" : String) ≠ "y") ∧
    buildCacheKey "u" Option.none .none [("B", "2"), ("a", "1")] =
      buildCacheKey "u" Option.none .none [("a", "1"), ("B", "2")] ∧
    buildCacheKey "u" Option.none (.str "x") [] ≠
      buildCacheKey "u" Option.none (.str "y") [] ∧
    buildCacheKey "u" Option.none .formData [] =
      buildCacheKey "u" Option.none (.str "[FormData]") [] :=
  ⟨⟨by decide, by decide, by decide⟩,
    cache_key_stability.1 "u" Option.none .none [("B", "2"), ("a", "1")]
      [("a", "1"), ("B", "2")] (by decide) (by decide),
    cache_key_stability.2.1 "u" Option.none [] "x" "y" (by decide),
    cache_key_stability.2.2 "u" Option.none []⟩

end SushiSpec
